import Mathlib

-- Verification of the scribble memory-map / register-map synthesis core.
--
-- The definitions below are a shallow embedding of
--   docs/scribble/document/util/memory_map.py
--   docs/scribble/document/util/register_map/models.py
--   docs/scribble/document/util/register_map/converter.py
-- Python integers are modelled as Nat (all quantities in the source are
-- non-negative addresses, sizes and bit offsets); the one derived quantity
-- that can be negative, AddressRange.top = base + size - 1 for size = 0, is
-- modelled as Int.  Fallible code (Python raising exceptions) is modelled
-- with Except.  Python's `sorted` is a stable sort; it is modelled with
-- List.insertionSort, which is also stable.  Python names with a leading
-- underscore keep the source name without the underscore.

-- Decidable equality on Except, for evaluating the model on concrete inputs.
deriving instance DecidableEq for Except

namespace Scribble

-- ------------------------------------------------------------------
-- memory_map.py : AddressRange / AddressMap
-- ------------------------------------------------------------------

-- memory_map.py class AddressRange(NamedTuple)
structure AddressRange where
  base : Nat
  size : Nat
deriving DecidableEq

-- memory_map.py AddressRange.top : base + size - 1 (inclusive upper bound)
def AddressRange.top (r : AddressRange) : Int := (r.base : Int) + r.size - 1

-- Errors raised as DocumentException in memory_map.py, with the entities the
-- interpolated message names carried as structured fields.
inductive MapError where
  | overlap (a b : AddressRange)
  | doesNotFit (r : AddressRange)
  | tooComplex (base mask : Nat)
deriving DecidableEq

def sortRangesByBase (l : List AddressRange) : List AddressRange :=
  List.insertionSort (fun a b => a.base ≤ b.base) l

-- memory_map.py AddressMap.assert_no_overlapping_ranges: scan adjacent pairs
-- of the sorted list, raising on the first pair with prev.top >= cur.base.
-- Returns the offending pair instead of raising.
def assert_no_overlapping_ranges : List AddressRange → Option (AddressRange × AddressRange)
  | a :: b :: rest =>
    if (b.base : Int) ≤ a.top then some (a, b)
    else assert_no_overlapping_ranges (b :: rest)
  | _ => none

-- memory_map.py AddressMap.__init__: sort by base, then verify no overlap.
def AddressMap.make (ranges : List AddressRange) : Except MapError (List AddressRange) :=
  let s := sortRangesByBase ranges
  match assert_no_overlapping_ranges s with
  | some (a, b) => .error (.overlap a b)
  | none => .ok s

-- ------------------------------------------------------------------
-- memory_map.py : correlate_maps
-- ------------------------------------------------------------------

-- The while-loop condition in correlate_maps:
-- small.top <= big.top and small.base >= big.base
def fits_in (small big : AddressRange) : Bool :=
  decide (small.top ≤ big.top) && decide (big.base ≤ small.base)

-- The inner while loop of correlate_maps: consume small ranges from the
-- front while they fit in big; return the group and the remaining smalls.
def correlate_consume (big : AddressRange) :
    List AddressRange → List AddressRange × List AddressRange
  | [] => ([], [])
  | s :: rest =>
    if fits_in s big then
      let (g, r) := correlate_consume big rest
      (s :: g, r)
    else ([], s :: rest)

-- The for-loop of correlate_maps: one (group, big) pair per big range, plus
-- the smalls left over at the end.
def correlate_go : List AddressRange → List AddressRange →
    List (List AddressRange × AddressRange) × List AddressRange
  | smaller, [] => ([], smaller)
  | smaller, big :: bs =>
    let (g, rest) := correlate_consume big smaller
    let (pairs, leftover) := correlate_go rest bs
    ((g, big) :: pairs, leftover)

-- memory_map.py correlate_maps.  The source is a generator whose consumer
-- (MemorySectionTable) drains it with list(...); the trailing raise makes the
-- whole correlation all-or-nothing, modelled as Except over the full result.
def correlate_maps (smaller bigger : List AddressRange) :
    Except MapError (List (List AddressRange × AddressRange)) :=
  match correlate_go smaller bigger with
  | (pairs, []) => .ok pairs
  | (_, s :: _) => .error (.doesNotFit s)

-- ------------------------------------------------------------------
-- memory_map.py : getRanges (address-set merger) and low_bits_only
-- ------------------------------------------------------------------

structure AddressSet where
  base : Nat
  mask : Nat
deriving DecidableEq

-- memory_map.py low_bits_only: shift out trailing one bits, then test zero.
-- The loop halves the mask while its low bit is set; a fuel argument (the
-- mask itself bounds the number of iterations) keeps the recursion
-- structural so that concrete instances compute by rfl.
def lowBitsOnlyAux : Nat → Nat → Bool
  | 0, mask => mask == 0
  | fuel + 1, mask => if mask % 2 = 1 then lowBitsOnlyAux fuel (mask / 2) else mask == 0

def low_bits_only (mask : Nat) : Bool := lowBitsOnlyAux mask mask

-- The per-set validity test of getRanges:
-- low_bits_only(mask) and (base & mask) == 0
def addressSetOk (s : AddressSet) : Bool :=
  low_bits_only s.mask && (s.base &&& s.mask == 0)

def sortSetsByBase (l : List AddressSet) : List AddressSet :=
  List.insertionSort (fun a b => a.base ≤ b.base) l

-- The merging sweep of getRanges over the sorted tail, carrying the running
-- (base, top); on a gap (top + 1 < cur.base) emit the merged range and
-- restart at cur.base; always advance top monotonically.
def getRangesSweep (base top : Nat) : List AddressSet → List AddressRange
  | [] => [⟨base, top - base + 1⟩]
  | cur :: rest =>
    if top + 1 < cur.base then
      ⟨base, top - base + 1⟩ :: getRangesSweep cur.base (max top (cur.base + cur.mask)) rest
    else
      getRangesSweep base (max top (cur.base + cur.mask)) rest

-- memory_map.py getRanges: sort the address sets by base; empty input yields
-- nothing; validate every set (raising on the first bad one in sorted
-- order); then merge with the sweep, seeded from the first set.
def getRanges (sets : List AddressSet) : Except MapError (List AddressRange) :=
  match sortSetsByBase sets with
  | [] => .ok []
  | first :: rest =>
    match (first :: rest).find? (fun s => ! addressSetOk s) with
    | some s => .error (.tooComplex s.base s.mask)
    | none => .ok (getRangesSweep first.base (first.base + first.mask) rest)

-- ------------------------------------------------------------------
-- register_map/models.py
-- ------------------------------------------------------------------

inductive Attr where
  | RW
  | RO
  | WO
deriving DecidableEq

-- models.py BitFieldRange; the exclusive upper end is called `end` in the
-- source, which is a Lean keyword, so it is named `stop` here.
structure BitFieldRange where
  begin : Nat
  stop : Nat
deriving DecidableEq

structure RegisterField where
  bits : BitFieldRange
  name : String
  attr : Attr
  reset : Option Nat
  description : String
deriving DecidableEq

-- models.py RegisterField._RESERVED and converter.py _OBJECT_MODEL_RESERVED_FIELD
def reservedName : String := "reserved"

-- models.py RegisterField.reserved classmethod.
def RegisterField.reserved (bits : BitFieldRange) : RegisterField :=
  ⟨bits, reservedName, .RO, some 0, ""⟩

structure Register where
  byte_offset : Nat
  name : String
  description : String
  fields : List RegisterField
deriving DecidableEq

-- models.py Register.byte_range: indexes fields[0] and fields[-1], so the
-- source raises IndexError on a register with no fields; the validator below
-- models that case as an error before this accessor's defaults matter.
def Register.byte_range (r : Register) : Nat × Nat :=
  (r.byte_offset + ((r.fields.head?.map (fun f => f.bits.begin)).getD 0) / 8,
   r.byte_offset + ((r.fields.getLast?.map (fun f => f.bits.stop)).getD 0) / 8)

structure RegisterMap where
  registers : List Register
deriving DecidableEq

-- ------------------------------------------------------------------
-- register_map/converter.py : raw object-model inputs
-- ------------------------------------------------------------------

-- The access type of a raw field; per the object-model interface its
-- concrete type is one of "R", "W", "RW".
inductive AccessType where
  | R
  | W
  | RW
deriving DecidableEq

structure RawDescription where
  name : String
  group : Option String
  access : AccessType
  resetValue : Option Nat
  description : String
deriving DecidableEq

structure RawBitRange where
  base : Nat
  size : Nat
deriving DecidableEq

structure RawField where
  description : RawDescription
  bitRange : RawBitRange
deriving DecidableEq

structure RawGroup where
  name : String
  description : String
deriving DecidableEq

-- converter.py _get_group: the explicit group annotation when present,
-- otherwise the field's own name.
def get_group (f : RawField) : String :=
  f.description.group.getD f.description.name

-- converter.py _convert_access_type.
def convert_access_type : AccessType → Attr
  | .R => .RO
  | .W => .WO
  | .RW => .RW

-- converter.py _convert_register_field: re-express the bit range relative to
-- the register's minimum bit offset.  Both subtractions are exact whenever
-- min_bit_offset is the minimum over a field list containing f.
def convert_register_field (min_bit_offset : Nat) (f : RawField) : RegisterField :=
  ⟨⟨f.bitRange.base - min_bit_offset, f.bitRange.base + f.bitRange.size - min_bit_offset⟩,
   f.description.name, convert_access_type f.description.access,
   f.description.resetValue, f.description.description⟩

-- ------------------------------------------------------------------
-- converter.py : interval subtraction (intervaltree chop)
-- ------------------------------------------------------------------

-- One intervaltree chop step on a single interval iv: remove [b, e),
-- keeping the (nonempty) pieces on either side.
def chopPiece (b e : Nat) (iv : Nat × Nat) : List (Nat × Nat) :=
  (if iv.1 < min iv.2 b then [(iv.1, min iv.2 b)] else []) ++
  (if max iv.1 e < iv.2 then [(max iv.1 e, iv.2)] else [])

def chopList (l : List (Nat × Nat)) (b e : Nat) : List (Nat × Nat) :=
  l.flatMap (chopPiece b e)

-- converter.py _get_uncovered_intervals: start from the domain and chop out
-- every covered interval.  The source iterates the covered intervals in
-- arbitrary set order; chop steps commute, so list order is used here.
def get_uncovered_intervals (domain : Nat × Nat) (covered : List (Nat × Nat)) :
    List (Nat × Nat) :=
  covered.foldl (fun acc c => chopList acc c.1 c.2) [domain]

-- Errors raised in converter.py (ValueError), with the entities the
-- interpolated messages name carried as structured fields.
inductive ConvError where
  | emptyGroup (group : String)
  | notByteAligned (group : String)
  | maxOfEmpty (group : String)
  | misaligned (group : String) (offset size : Nat)
  | nullInterval
  | emptyRegisterFields
  | overlappingRegisters (regs : List Register)
deriving DecidableEq

-- Python min()/max() over a non-empty list (leftmost extremum; only the
-- value is used here).  Empty input is the callers' error case.
def listMin? : List Nat → Option Nat
  | [] => none
  | x :: xs => some (xs.foldl min x)

def listMax? : List Nat → Option Nat
  | [] => none
  | x :: xs => some (xs.foldl max x)

-- converter.py _fill_reserved_fields: the uncovered gaps of
-- [0, max_bit_offset) become reserved fields appended to the real ones.
-- intervaltree rejects null intervals: IntervalTree.from_tuples raises on a
-- field with begin >= end, and IntervalTree([domain]) on an empty domain;
-- both are modelled as errors here.
def fill_reserved_fields (fields : List RegisterField) (max_bit_offset : Nat) :
    Except ConvError (List RegisterField) :=
  if fields.all (fun f => f.bits.begin < f.bits.stop) then
    if max_bit_offset = 0 then .error .nullInterval
    else
      let gaps := get_uncovered_intervals (0, max_bit_offset)
        (fields.map (fun f => (f.bits.begin, f.bits.stop)))
      .ok (fields ++ gaps.map (fun g => RegisterField.reserved ⟨g.1, g.2⟩))
  else .error .nullInterval

-- Python int.bit_length for non-negative integers, with a structural fuel
-- argument (the number itself bounds the iteration count) so that concrete
-- instances compute by rfl.
def bitLengthAux : Nat → Nat → Nat
  | 0, _ => 0
  | fuel + 1, n => if n = 0 then 0 else bitLengthAux fuel (n / 2) + 1

def bit_length (n : Nat) : Nat := bitLengthAux n n

-- converter.py: register_size = max(2 ** (max_bit_offset - 1).bit_length(), 8)
def registerSizeBits (max_bit_offset : Nat) : Nat :=
  max (2 ^ bit_length (max_bit_offset - 1)) 8

def sortFieldsByBegin (l : List RegisterField) : List RegisterField :=
  List.insertionSort (fun a b => a.bits.begin ≤ b.bits.begin) l

-- The new_fields list of _create_register: drop raw fields named "reserved",
-- convert the rest relative to the register's minimum bit offset.
def newFields (min_bit_offset : Nat) (fields : List RawField) : List RegisterField :=
  (fields.filter (fun f => f.description.name != reservedName)).map
    (convert_register_field min_bit_offset)

-- converter.py _create_register.  Python's min()/max() raise ValueError on
-- an empty sequence; those paths are the emptyGroup / maxOfEmpty errors.
def create_register (group_name : String) (group : Option RawGroup)
    (fields : List RawField) : Except ConvError Register :=
  match listMin? (fields.map (fun f => f.bitRange.base)) with
  | none => .error (.emptyGroup group_name)
  | some min_bit_offset =>
    if min_bit_offset % 8 ≠ 0 then .error (.notByteAligned group_name)
    else
      let new_fields := newFields min_bit_offset fields
      match listMax? (new_fields.map (fun f => f.bits.stop)) with
      | none => .error (.maxOfEmpty group_name)
      | some max_bit_offset =>
        let register_size := registerSizeBits max_bit_offset
        if min_bit_offset % register_size ≠ 0 then
          .error (.misaligned group_name min_bit_offset register_size)
        else
          let description :=
            match group, new_fields with
            | some g, _ => g.description
            | none, [sole] => sole.description
            | none, _ => ""
          match fill_reserved_fields new_fields register_size with
          | .error e => .error e
          | .ok filled =>
            .ok ⟨min_bit_offset / 8, group_name, description, sortFieldsByBegin filled⟩

-- ------------------------------------------------------------------
-- converter.py : register-map validation
-- ------------------------------------------------------------------

-- An intervaltree Interval carrying a register as data.
structure RegInterval where
  lo : Nat
  hi : Nat
  data : Register
deriving DecidableEq

def intervalOverlapsB (a b : RegInterval) : Bool :=
  decide (a.lo < b.hi) && decide (b.lo < a.hi)

-- tree.search(interval): every interval of the tree overlapping the probe.
def treeSearch (tree : List RegInterval) (x : RegInterval) : List RegInterval :=
  tree.filter (fun y => intervalOverlapsB x y)

-- The loop of find_overlapping_intervals: return the overlap set of the
-- first interval that overlaps more than itself.
def findOverlapAux (tree : List RegInterval) : List RegInterval → List RegInterval
  | [] => []
  | x :: rest =>
    let s := treeSearch tree x
    if 1 < s.length then s else findOverlapAux tree rest

-- converter.py find_overlapping_intervals.  IntervalTree is a set of
-- intervals, so duplicates collapse; the source iterates that set in
-- unspecified order, modelled here as first-to-last list order.
def find_overlapping_intervals (intervals : List RegInterval) : List RegInterval :=
  let tree := intervals.dedup
  findOverlapAux tree tree

-- The per-register interval built by _validate_registers from
-- register.byte_range; IntervalTree.from_tuples raises on a register whose
-- byte range is a null interval, and byte_range itself raises when the
-- register has no fields.
def registerInterval (r : Register) : Except ConvError RegInterval :=
  match r.fields with
  | [] => .error .emptyRegisterFields
  | _ =>
    if r.byte_range.1 < r.byte_range.2 then .ok ⟨r.byte_range.1, r.byte_range.2, r⟩
    else .error .nullInterval

-- The interval-building comprehension of _validate_registers, stopping at
-- the first register IntervalTree.from_tuples rejects.
def registerIntervals : List Register → Except ConvError (List RegInterval)
  | [] => .ok []
  | r :: rest =>
    match registerInterval r with
    | .error e => .error e
    | .ok iv =>
      match registerIntervals rest with
      | .error e => .error e
      | .ok ivs => .ok (iv :: ivs)

-- converter.py _validate_registers.
def validate_registers (registers : List Register) : Except ConvError Unit :=
  match registerIntervals registers with
  | .error e => .error e
  | .ok intervals =>
    match find_overlapping_intervals intervals with
    | [] => .ok ()
    | overlaps => .error (.overlappingRegisters (overlaps.map (fun iv => iv.data)))

def sortRegistersByOffset (l : List Register) : List Register :=
  List.insertionSort (fun a b => a.byte_offset ≤ b.byte_offset) l

-- The tail of converter.py load_register_map_from_object_model: validate the
-- synthesized registers, then return them sorted by byte offset.
def load_register_map (registers : List Register) : Except ConvError RegisterMap :=
  match validate_registers registers with
  | .error e => .error e
  | .ok _ => .ok ⟨sortRegistersByOffset registers⟩

-- ------------------------------------------------------------------
-- Derived predicates and spec-side descriptions used by the theorems
-- ------------------------------------------------------------------

-- A point x lies in one of the half-open intervals of l.
def memIv (l : List (Nat × Nat)) (x : Nat) : Prop :=
  ∃ iv ∈ l, iv.1 ≤ x ∧ x < iv.2

-- A list of proper intervals in ascending, pairwise-disjoint order.
def ivSortedDisj (l : List (Nat × Nat)) : Prop :=
  List.Pairwise (fun p q => p.2 ≤ q.1) l ∧ ∀ p ∈ l, p.1 < p.2

-- The interval _validate_registers builds for one register.
def regIv (r : Register) : RegInterval :=
  ⟨r.byte_range.1, r.byte_range.2, r⟩

-- Two registers whose half-open byte ranges intersect, as the interval tree
-- in _validate_registers determines overlap.
def registersOverlap (r1 r2 : Register) : Prop :=
  r1.byte_range.1 < r2.byte_range.2 ∧ r2.byte_range.1 < r1.byte_range.2

-- Modelled from the spec (4.6): the claim reads byteRange as the inclusive
-- byte interval [low, high]; two inclusive intervals overlap iff each one's
-- low bound is at most the other's high bound.  This is the spec-side
-- definition compared against the code's half-open treatment.
def specInclusiveOverlap (r1 r2 : Register) : Prop :=
  r1.byte_range.1 ≤ r2.byte_range.2 ∧ r2.byte_range.1 ≤ r1.byte_range.2

-- Spec-side description of correlate_maps (4.3): per coarse range, the group
-- is the maximal run of fine ranges consumed from the front of the remaining
-- fine sequence that fit inside it.
def specCorrGroups : List AddressRange → List AddressRange → List (List AddressRange)
  | _, [] => []
  | smaller, big :: bs =>
    smaller.takeWhile (fun s => fits_in s big) ::
      specCorrGroups (smaller.dropWhile (fun s => fits_in s big)) bs

-- Spec-side description of the fine ranges left unconsumed after all coarse
-- ranges are processed.
def specCorrRest : List AddressRange → List AddressRange → List AddressRange
  | smaller, [] => smaller
  | smaller, big :: bs => specCorrRest (smaller.dropWhile (fun s => fits_in s big)) bs

-- ==================================================================
-- Theorems
-- ==================================================================

-- Generic helpers about the stable sorts and about list membership.

theorem insertionSort_key_sorted {α : Type} (k : α → Nat) (l : List α) :
    List.Pairwise (fun a b => k a ≤ k b) (List.insertionSort (fun a b => k a ≤ k b) l) := by
  haveI : IsTotal α (fun a b => k a ≤ k b) := ⟨fun a b => Nat.le_total (k a) (k b)⟩
  haveI : IsTrans α (fun a b => k a ≤ k b) := ⟨fun a b c hab hbc => Nat.le_trans hab hbc⟩
  exact List.sorted_insertionSort _ l

theorem two_mem_le_length {α : Type} {l : List α} {a b : α}
    (ha : a ∈ l) (hb : b ∈ l) (hne : a ≠ b) : 2 ≤ l.length := by
  match l with
  | [] => cases ha
  | [x] =>
    simp only [List.mem_singleton] at ha hb
    exact absurd (ha.trans hb.symm) hne
  | x :: y :: t => simp [List.length_cons]

theorem nodup_two_of_lt_length {α : Type} {l : List α} (hn : l.Nodup) (hl : 1 < l.length) :
    ∃ a ∈ l, ∃ b ∈ l, a ≠ b := by
  match l with
  | [] => simp at hl
  | [x] => simp at hl
  | x :: y :: t =>
    refine ⟨x, by simp, y, by simp, fun h => ?_⟩
    exact (List.nodup_cons.mp hn).1 (h ▸ List.mem_cons_self y t)

-- ------------------------------------------------------------------
-- C2 : AddressMap construction
-- ------------------------------------------------------------------

theorem assert_no_overlapping_none_iff : ∀ l : List AddressRange,
    assert_no_overlapping_ranges l = none ↔
      List.Chain' (fun a b => a.top < (b.base : Int)) l
  | [] => by simp [assert_no_overlapping_ranges]
  | [a] => by simp [assert_no_overlapping_ranges]
  | a :: b :: rest => by
    have ih := assert_no_overlapping_none_iff (b :: rest)
    rw [List.chain'_cons, ← ih]
    simp only [assert_no_overlapping_ranges]
    split_ifs with h
    · simp only [reduceCtorEq, false_iff]
      rintro ⟨hlt, -⟩
      omega
    · exact ⟨fun hx => ⟨by omega, hx⟩, fun hx => hx.2⟩

theorem assert_no_overlapping_some : ∀ (l : List AddressRange) (a b : AddressRange),
    assert_no_overlapping_ranges l = some (a, b) →
      (b.base : Int) ≤ a.top ∧ ∃ l1 l2, l = l1 ++ a :: b :: l2
  | [], a, b => by simp [assert_no_overlapping_ranges]
  | [x], a, b => by simp [assert_no_overlapping_ranges]
  | x :: y :: rest, a, b => by
    simp only [assert_no_overlapping_ranges]
    split_ifs with h
    · intro he
      simp only [Option.some.injEq, Prod.mk.injEq] at he
      obtain ⟨rfl, rfl⟩ := he
      exact ⟨h, [], rest, rfl⟩
    · intro he
      obtain ⟨hle, l1, l2, heq⟩ := assert_no_overlapping_some (y :: rest) a b he
      exact ⟨hle, x :: l1, l2, by simp [heq]⟩

/-- C2: for every list of ranges of positive size given to the AddressMap
constructor, with s the stable sort of the input by base: if every adjacent
pair of s satisfies top < next.base, construction succeeds and returns s, a
permutation of the input sorted ascending by base with that invariant;
otherwise construction fails with an overlap error naming an adjacent
offending pair of s. -/
theorem addressMap_make_spec (ranges : List AddressRange)
    (hpos : ∀ r ∈ ranges, 0 < r.size) :
    (List.Chain' (fun a b => a.top < (b.base : Int)) (sortRangesByBase ranges) →
      AddressMap.make ranges = .ok (sortRangesByBase ranges) ∧
      (sortRangesByBase ranges).Perm ranges ∧
      List.Pairwise (fun a b => a.base ≤ b.base) (sortRangesByBase ranges)) ∧
    (¬ List.Chain' (fun a b => a.top < (b.base : Int)) (sortRangesByBase ranges) →
      ∃ a b l1 l2, AddressMap.make ranges = .error (.overlap a b) ∧
        sortRangesByBase ranges = l1 ++ a :: b :: l2 ∧ (b.base : Int) ≤ a.top) := by
  constructor
  · intro hc
    have hnone := (assert_no_overlapping_none_iff (sortRangesByBase ranges)).mpr hc
    refine ⟨?_, List.perm_insertionSort _ ranges, ?_⟩
    · simp [AddressMap.make, hnone]
    · exact insertionSort_key_sorted (fun r => r.base) ranges
  · intro hc
    rcases hsome : assert_no_overlapping_ranges (sortRangesByBase ranges) with _ | ⟨a, b⟩
    · exact absurd ((assert_no_overlapping_none_iff _).mp hsome) hc
    · obtain ⟨hle, l1, l2, heq⟩ := assert_no_overlapping_some _ a b hsome
      refine ⟨a, b, l1, l2, ?_, heq, hle⟩
      simp [AddressMap.make, hsome]

/-- C2 witness: the theorem applied to the concrete input
[(0,16), (16,16)], whose sorted form satisfies the invariant. -/
theorem addressMap_make_spec_witness :
    (∀ r ∈ [AddressRange.mk 0 16, AddressRange.mk 16 16], 0 < r.size) ∧
    AddressMap.make [AddressRange.mk 0 16, AddressRange.mk 16 16] =
      .ok [AddressRange.mk 0 16, AddressRange.mk 16 16] := by
  refine ⟨by decide, ?_⟩
  have hch : List.Chain' (fun a b => a.top < (b.base : Int))
      (sortRangesByBase [AddressRange.mk 0 16, AddressRange.mk 16 16]) := by
    show List.Chain' (fun a b => a.top < (b.base : Int))
      [AddressRange.mk 0 16, AddressRange.mk 16 16]
    simp only [List.chain'_cons, List.chain'_singleton, and_true]
    decide
  have h :=
    (addressMap_make_spec [AddressRange.mk 0 16, AddressRange.mk 16 16] (by decide)).1 hch
  exact h.1.trans (by decide)

-- ------------------------------------------------------------------
-- C4 : correlate_maps
-- ------------------------------------------------------------------

theorem correlate_consume_eq (big : AddressRange) : ∀ l : List AddressRange,
    correlate_consume big l =
      (l.takeWhile (fun s => fits_in s big), l.dropWhile (fun s => fits_in s big))
  | [] => by simp [correlate_consume]
  | s :: rest => by
    simp only [correlate_consume, List.takeWhile_cons, List.dropWhile_cons]
    by_cases h : fits_in s big
    · simp [h, correlate_consume_eq big rest]
    · simp [h]

theorem correlate_go_eq : ∀ (bigger smaller : List AddressRange),
    correlate_go smaller bigger =
      ((specCorrGroups smaller bigger).zip bigger, specCorrRest smaller bigger)
  | [], smaller => by simp [correlate_go, specCorrGroups, specCorrRest]
  | big :: bs, smaller => by
    simp only [correlate_go, specCorrGroups, specCorrRest, correlate_consume_eq,
      correlate_go_eq bs, List.zip_cons_cons]

theorem specCorr_append : ∀ (bigger smaller : List AddressRange),
    (specCorrGroups smaller bigger).flatten ++ specCorrRest smaller bigger = smaller
  | [], smaller => by simp [specCorrGroups, specCorrRest]
  | big :: bs, smaller => by
    simp only [specCorrGroups, specCorrRest, List.flatten_cons, List.append_assoc,
      specCorr_append bs]
    exact List.takeWhile_append_dropWhile _ _

theorem specCorrGroups_length : ∀ (bigger smaller : List AddressRange),
    (specCorrGroups smaller bigger).length = bigger.length
  | [], smaller => by simp [specCorrGroups]
  | big :: bs, smaller => by
    simp only [specCorrGroups, List.length_cons, specCorrGroups_length bs]

/-- C4: for two address maps fine (smaller) and coarse (bigger), correlation
produces exactly one (group, coarse) pair per coarse range in coarse order,
each group being the maximal run of fine ranges consumed from the front of
the remaining fine sequence that fit inside the coarse range (as described by
specCorrGroups); the groups and the leftover partition the fine sequence; it
succeeds iff no fine range is left unconsumed, and otherwise fails with an
error naming the first unconsumed fine range. -/
theorem correlate_maps_spec (smaller bigger : List AddressRange)
    (hsm : List.Chain' (fun a b => a.top < (b.base : Int)) smaller)
    (hbg : List.Chain' (fun a b => a.top < (b.base : Int)) bigger) :
    (((specCorrGroups smaller bigger).zip bigger).map Prod.snd = bigger) ∧
    ((specCorrGroups smaller bigger).flatten ++ specCorrRest smaller bigger = smaller) ∧
    (specCorrRest smaller bigger = [] →
      correlate_maps smaller bigger = .ok ((specCorrGroups smaller bigger).zip bigger)) ∧
    (∀ s ss, specCorrRest smaller bigger = s :: ss →
      correlate_maps smaller bigger = .error (.doesNotFit s)) := by
  refine ⟨?_, specCorr_append bigger smaller, ?_, ?_⟩
  · have hlen := specCorrGroups_length bigger smaller
    clear hsm hbg
    induction bigger generalizing smaller with
    | nil => simp [specCorrGroups]
    | cons big bs ih =>
      simp only [specCorrGroups, List.zip_cons_cons, List.map_cons]
      rw [ih _ (specCorrGroups_length bs _)]
  · intro h0
    simp [correlate_maps, correlate_go_eq, h0]
  · intro s ss h0
    simp [correlate_maps, correlate_go_eq, h0]

/-- C4 witness: the theorem applied to fine ranges (0,4), (8,4) and the
single coarse range (0,16), where both fine ranges are consumed. -/
theorem correlate_maps_spec_witness :
    correlate_maps [AddressRange.mk 0 4, AddressRange.mk 8 4] [AddressRange.mk 0 16] =
      .ok [([AddressRange.mk 0 4, AddressRange.mk 8 4], AddressRange.mk 0 16)] := by
  have hsm : List.Chain' (fun a b => a.top < (b.base : Int))
      [AddressRange.mk 0 4, AddressRange.mk 8 4] := by
    simp only [List.chain'_cons, List.chain'_singleton, and_true]
    decide
  have hbg : List.Chain' (fun a b => a.top < (b.base : Int)) [AddressRange.mk 0 16] :=
    List.chain'_singleton _
  have h := correlate_maps_spec [AddressRange.mk 0 4, AddressRange.mk 8 4]
    [AddressRange.mk 0 16] hsm hbg
  exact (h.2.2.1 (by decide)).trans (by decide)

-- ------------------------------------------------------------------
-- C6 : address-set validity in getRanges
-- ------------------------------------------------------------------

theorem lowBitsOnlyAux_iff : ∀ (fuel m : Nat), m ≤ fuel →
    (lowBitsOnlyAux fuel m = true ↔ ∃ n : Nat, m = 2 ^ n - 1)
  | 0, m, h => by
    have hm : m = 0 := Nat.le_zero.mp h
    subst hm
    simp only [lowBitsOnlyAux, beq_self_eq_true, true_iff]
    exact ⟨0, by norm_num⟩
  | fuel + 1, m, h => by
    simp only [lowBitsOnlyAux]
    split_ifs with hodd
    · have hle : m / 2 ≤ fuel := by omega
      rw [lowBitsOnlyAux_iff fuel (m / 2) hle]
      constructor
      · rintro ⟨n, hn⟩
        refine ⟨n + 1, ?_⟩
        have h2 : 0 < 2 ^ n := Nat.two_pow_pos n
        have hp : 2 ^ (n + 1) = 2 * 2 ^ n := by rw [Nat.pow_succ]; ring
        omega
      · rintro ⟨n, hn⟩
        match n with
        | 0 => exfalso; norm_num at hn; omega
        | k + 1 =>
          refine ⟨k, ?_⟩
          have h2 : 0 < 2 ^ k := Nat.two_pow_pos k
          have hp : 2 ^ (k + 1) = 2 * 2 ^ k := by rw [Nat.pow_succ]; ring
          omega
    · constructor
      · intro hb
        have hm : m = 0 := by simpa using hb
        exact ⟨0, by simp [hm]⟩
      · rintro ⟨n, hn⟩
        match n with
        | 0 => norm_num at hn; simp [hn]
        | k + 1 =>
          exfalso
          have h2 : 0 < 2 ^ k := Nat.two_pow_pos k
          have hp : 2 ^ (k + 1) = 2 * 2 ^ k := by rw [Nat.pow_succ]; ring
          omega

theorem low_bits_only_iff (m : Nat) :
    low_bits_only m = true ↔ ∃ n : Nat, m = 2 ^ n - 1 :=
  lowBitsOnlyAux_iff m m le_rfl

theorem addressSetOk_iff (s : AddressSet) :
    addressSetOk s = true ↔ (∃ n : Nat, s.mask = 2 ^ n - 1) ∧ s.base &&& s.mask = 0 := by
  simp [addressSetOk, Bool.and_eq_true, low_bits_only_iff, beq_iff_eq]

/-- C6: getRanges fails with a too-complex error iff some address set has a
mask that is not a contiguous run of low bits (of the form 2^n - 1, n = 0
included) or a base sharing set bits with the mask; every such error carries
the base and mask of an offending set; and low_bits_only accepts exactly the
masks of the form 2^n - 1. -/
theorem getRanges_complex_spec (sets : List AddressSet) :
    ((∃ e, getRanges sets = .error e) ↔
      ∃ s ∈ sets, ¬ ((∃ n : Nat, s.mask = 2 ^ n - 1) ∧ s.base &&& s.mask = 0)) ∧
    (∀ b m, getRanges sets = .error (.tooComplex b m) →
      ∃ s ∈ sets, s.base = b ∧ s.mask = m ∧ addressSetOk s = false) ∧
    (∀ m : Nat, low_bits_only m = true ↔ ∃ n : Nat, m = 2 ^ n - 1) := by
  have hperm : (sortSetsByBase sets).Perm sets := List.perm_insertionSort _ sets
  refine ⟨?_, ?_, low_bits_only_iff⟩
  all_goals rcases hs : sortSetsByBase sets with _ | ⟨first, rest⟩
  · rw [hs] at hperm
    have hnil : sets = [] := hperm.symm.eq_nil
    subst hnil
    simp [getRanges, hs]
  · rw [hs] at hperm
    rcases hf : (first :: rest).find? (fun s => ! addressSetOk s) with _ | s
    · have hall := List.find?_eq_none.mp hf
      constructor
      · rintro ⟨e, he⟩
        exfalso
        simp only [getRanges, hs, hf] at he
        cases he
      · rintro ⟨s, hsmem, hbad⟩
        exfalso
        have hmem2 : s ∈ first :: rest := hperm.symm.subset hsmem
        have := hall s hmem2
        simp only [Bool.not_eq_true', Bool.not_eq_false] at this
        exact hbad ((addressSetOk_iff s).mp this)
    · have hsmem : s ∈ first :: rest := List.mem_of_find?_eq_some hf
      have hbad : addressSetOk s = false := by
        have := List.find?_some hf
        simpa using this
      constructor
      · intro _
        refine ⟨s, hperm.subset hsmem, ?_⟩
        rw [← addressSetOk_iff]
        simp [hbad]
      · intro _
        exact ⟨.tooComplex s.base s.mask, by simp only [getRanges, hs, hf]⟩
  · rw [hs] at hperm
    intro b m he
    simp only [getRanges, hs] at he
    cases he
  · rw [hs] at hperm
    intro b m he
    simp only [getRanges, hs] at he
    rcases hf : (first :: rest).find? (fun s => ! addressSetOk s) with _ | s
    · simp only [hf] at he
      cases he
    · simp only [hf] at he
      have hsmem : s ∈ first :: rest := List.mem_of_find?_eq_some hf
      have hbad : addressSetOk s = false := by
        have := List.find?_some hf
        simpa using this
      cases he
      exact ⟨s, hperm.subset hsmem, rfl, rfl, hbad⟩

theorem ten_not_pow_sub_one : ¬ ∃ n : Nat, (10 : Nat) = 2 ^ n - 1 := by
  rintro ⟨n, hn⟩
  match n with
  | 0 => norm_num at hn
  | 1 => norm_num at hn
  | 2 => norm_num at hn
  | 3 => norm_num at hn
  | k + 4 =>
    have h1 : 2 ^ 4 ≤ 2 ^ (k + 4) := Nat.pow_le_pow_right (by omega) (by omega)
    omega

/-- C6 witness: the theorem applied to a single address set with the
non-contiguous mask 0b1010, which must make getRanges fail. -/
theorem getRanges_complex_spec_witness :
    ∃ e, getRanges [AddressSet.mk 0 10] = .error e := by
  refine ((getRanges_complex_spec [AddressSet.mk 0 10]).1).mpr ?_
  exact ⟨AddressSet.mk 0 10, by simp, fun hc => ten_not_pow_sub_one hc.1⟩

-- ------------------------------------------------------------------
-- C5 : the address-set merging sweep
-- ------------------------------------------------------------------

theorem addressRange_mk_base (b s : Nat) : (AddressRange.mk b s).base = b := rfl

theorem addressRange_mk_size (b s : Nat) : (AddressRange.mk b s).size = s := rfl

theorem getRangesSweep_covers : ∀ (L : List AddressSet) (base top a : Nat),
    base ≤ top → (∀ s ∈ L, base ≤ s.base) →
    List.Pairwise (fun s1 s2 => s1.base ≤ s2.base) L →
    ((∃ r ∈ getRangesSweep base top L, r.base ≤ a ∧ a < r.base + r.size) ↔
      (base ≤ a ∧ a ≤ top) ∨ ∃ s ∈ L, s.base ≤ a ∧ a ≤ s.base + s.mask)
  | [], base, top, a, hbt, _, _ => by
    simp only [getRangesSweep, List.mem_singleton, List.not_mem_nil, false_and,
      exists_false, or_false]
    constructor
    · rintro ⟨r, rfl, h1, h2⟩
      simp only [addressRange_mk_base, addressRange_mk_size] at h1 h2
      omega
    · rintro ⟨h1, h2⟩
      refine ⟨⟨base, top - base + 1⟩, rfl, ?_, ?_⟩ <;>
        simp only [addressRange_mk_base, addressRange_mk_size] <;> omega
  | cur :: rest, base, top, a, hbt, hball, hsorted => by
    have hcur : base ≤ cur.base := hball cur (by simp)
    have hrest : ∀ s ∈ rest, cur.base ≤ s.base := (List.pairwise_cons.mp hsorted).1
    have hsorted' := (List.pairwise_cons.mp hsorted).2
    simp only [getRangesSweep]
    split_ifs with hgap
    · have ih := getRangesSweep_covers rest cur.base (max top (cur.base + cur.mask)) a
        (le_trans (Nat.le_add_right _ _) (le_max_right _ _)) hrest hsorted'
      simp only [List.mem_cons, exists_eq_or_imp]
      rw [ih]
      constructor
      · rintro (h1 | h2 | hR)
        · exact Or.inl (by omega)
        · exact Or.inr (Or.inl (by omega))
        · exact Or.inr (Or.inr hR)
      · rintro (h1 | h2 | hR)
        · exact Or.inl (by omega)
        · exact Or.inr (Or.inl (by omega))
        · exact Or.inr (Or.inr hR)
    · have hih := getRangesSweep_covers rest base (max top (cur.base + cur.mask)) a
        (le_trans hbt (le_max_left _ _))
        (fun s hs => le_trans hcur (hrest s hs)) hsorted'
      rw [hih]
      simp only [List.mem_cons, exists_eq_or_imp]
      constructor
      · rintro (h1 | hR)
        · by_cases hat : a ≤ top
          · exact Or.inl ⟨h1.1, hat⟩
          · exact Or.inr (Or.inl (by omega))
        · exact Or.inr (Or.inr hR)
      · rintro (h1 | h2 | hR)
        · exact Or.inl ⟨h1.1, by omega⟩
        · exact Or.inl ⟨by omega, by omega⟩
        · exact Or.inr hR

theorem getRangesSweep_props : ∀ (L : List AddressSet) (base top : Nat),
    base ≤ top → (∀ s ∈ L, base ≤ s.base) →
    List.Pairwise (fun s1 s2 => s1.base ≤ s2.base) L →
    (∀ r ∈ getRangesSweep base top L, base ≤ r.base ∧ 0 < r.size) ∧
    List.Pairwise (fun r1 r2 => r1.base + r1.size < r2.base) (getRangesSweep base top L)
  | [], base, top, hbt, _, _ => by
    constructor
    · intro r hr
      simp only [getRangesSweep, List.mem_singleton] at hr
      subst hr
      refine ⟨?_, ?_⟩ <;> simp only [addressRange_mk_base, addressRange_mk_size] <;> omega
    · simp only [getRangesSweep]
      exact List.pairwise_singleton _ _
  | cur :: rest, base, top, hbt, hball, hsorted => by
    have hcur : base ≤ cur.base := hball cur (by simp)
    have hrest : ∀ s ∈ rest, cur.base ≤ s.base := (List.pairwise_cons.mp hsorted).1
    have hsorted' := (List.pairwise_cons.mp hsorted).2
    simp only [getRangesSweep]
    split_ifs with hgap
    · have ih := getRangesSweep_props rest cur.base (max top (cur.base + cur.mask))
        (le_trans (Nat.le_add_right _ _) (le_max_right _ _)) hrest hsorted'
      constructor
      · intro r hr
        rcases List.mem_cons.mp hr with rfl | hr'
        · refine ⟨?_, ?_⟩ <;> simp only [addressRange_mk_base, addressRange_mk_size] <;> omega
        · have h1 := (ih.1 r hr').1
          have h2 := (ih.1 r hr').2
          exact ⟨by omega, h2⟩
      · refine List.pairwise_cons.mpr ⟨?_, ih.2⟩
        intro r hr'
        have hrb := (ih.1 r hr').1
        simp only [addressRange_mk_base, addressRange_mk_size]
        omega
    · exact getRangesSweep_props rest base (max top (cur.base + cur.mask))
        (le_trans hbt (le_max_left _ _)) (fun s hs => le_trans hcur (hrest s hs)) hsorted'

/-- C5: for every non-empty list of valid address sets, getRanges succeeds
and returns ranges of positive size, in ascending base order, pairwise
disjoint and non-adjacent (each range ends at least two below the next
base), covering exactly the union of the input sets; in particular two
adjacent 16-byte sets merge into (0,32) and two separated ones give (0,16)
and (32,16). -/
theorem getRanges_spec (sets : List AddressSet) (hne : sets ≠ [])
    (hok : ∀ s ∈ sets, addressSetOk s = true) :
    (∃ out, getRanges sets = .ok out ∧
      List.Pairwise (fun r1 r2 => r1.base + r1.size < r2.base) out ∧
      (∀ r ∈ out, 0 < r.size) ∧
      (∀ a : Nat, (∃ r ∈ out, r.base ≤ a ∧ a < r.base + r.size) ↔
        ∃ s ∈ sets, s.base ≤ a ∧ a ≤ s.base + s.mask)) ∧
    getRanges [AddressSet.mk 0 15, AddressSet.mk 16 15] = .ok [AddressRange.mk 0 32] ∧
    getRanges [AddressSet.mk 0 15, AddressSet.mk 32 15] =
      .ok [AddressRange.mk 0 16, AddressRange.mk 32 16] := by
  refine ⟨?_, by decide, by decide⟩
  have hperm : (sortSetsByBase sets).Perm sets := List.perm_insertionSort _ sets
  have hsorted : List.Pairwise (fun s1 s2 : AddressSet => s1.base ≤ s2.base)
      (sortSetsByBase sets) := insertionSort_key_sorted (fun s => s.base) sets
  rcases hs : sortSetsByBase sets with _ | ⟨first, rest⟩
  · rw [hs] at hperm
    exact absurd hperm.symm.eq_nil hne
  · rw [hs] at hperm hsorted
    have hfind : (first :: rest).find? (fun s => ! addressSetOk s) = none :=
      List.find?_eq_none.mpr (fun x hx => by simp [hok x (hperm.subset hx)])
    have hball := (List.pairwise_cons.mp hsorted).1
    have hsorted' := (List.pairwise_cons.mp hsorted).2
    have hprops := getRangesSweep_props rest first.base (first.base + first.mask)
      (Nat.le_add_right _ _) hball hsorted'
    refine ⟨getRangesSweep first.base (first.base + first.mask) rest, ?_, hprops.2, ?_, ?_⟩
    · simp only [getRanges, hs, hfind]
    · intro r hr
      exact (hprops.1 r hr).2
    · intro a
      have hcov := getRangesSweep_covers rest first.base (first.base + first.mask) a
        (Nat.le_add_right _ _) hball hsorted'
      rw [hcov]
      constructor
      · rintro (h1 | ⟨s, hsm, hp⟩)
        · exact ⟨first, hperm.subset (by simp), h1⟩
        · exact ⟨s, hperm.subset (List.mem_cons_of_mem _ hsm), hp⟩
      · rintro ⟨s, hsm, hp⟩
        rcases List.mem_cons.mp (hperm.symm.subset hsm) with rfl | h'
        · exact Or.inl hp
        · exact Or.inr ⟨s, h', hp⟩

/-- C5 witness: the theorem applied to the two adjacent 16-byte sets. -/
theorem getRanges_spec_witness :
    ∃ out, getRanges [AddressSet.mk 0 15, AddressSet.mk 16 15] = .ok out ∧
      ∀ r ∈ out, 0 < r.size := by
  obtain ⟨out, h1, _, h3, _⟩ :=
    (getRanges_spec [AddressSet.mk 0 15, AddressSet.mk 16 15] (by decide) (by decide)).1
  exact ⟨out, h1, h3⟩

-- ------------------------------------------------------------------
-- Helpers about listMin?, listMax?, bit_length and registerSizeBits
-- ------------------------------------------------------------------

theorem foldl_min_le_init : ∀ (xs : List Nat) (x : Nat), xs.foldl min x ≤ x
  | [], x => le_refl x
  | y :: ys, x => le_trans (foldl_min_le_init ys (min x y)) (min_le_left x y)

theorem foldl_min_le_mem : ∀ (xs : List Nat) (x y : Nat), y ∈ xs → xs.foldl min x ≤ y
  | z :: ys, x, y, hy => by
    rcases List.mem_cons.mp hy with rfl | h
    · exact le_trans (foldl_min_le_init ys (min x y)) (min_le_right x y)
    · exact foldl_min_le_mem ys (min x z) y h

theorem foldl_min_mem : ∀ (xs : List Nat) (x : Nat), xs.foldl min x ∈ x :: xs
  | [], x => by simp
  | y :: ys, x => by
    have h := foldl_min_mem ys (min x y)
    simp only [List.foldl_cons]
    rcases List.mem_cons.mp h with he | h2
    · rw [he]
      rcases le_total x y with hxy | hyx
      · rw [min_eq_left hxy]
        simp
      · rw [min_eq_right hyx]
        simp
    · exact List.mem_cons_of_mem _ (List.mem_cons_of_mem _ h2)

theorem listMin?_spec : ∀ (l : List Nat) (m : Nat), listMin? l = some m →
    m ∈ l ∧ ∀ y ∈ l, m ≤ y
  | [], m, h => by simp [listMin?] at h
  | x :: xs, m, h => by
    simp only [listMin?, Option.some.injEq] at h
    subst h
    refine ⟨foldl_min_mem xs x, ?_⟩
    intro y hy
    rcases List.mem_cons.mp hy with rfl | h2
    · exact foldl_min_le_init xs y
    · exact foldl_min_le_mem xs x y h2

theorem foldl_max_init_le : ∀ (xs : List Nat) (x : Nat), x ≤ xs.foldl max x
  | [], x => le_refl x
  | y :: ys, x => le_trans (le_max_left x y) (foldl_max_init_le ys (max x y))

theorem foldl_max_mem_le : ∀ (xs : List Nat) (x y : Nat), y ∈ xs → y ≤ xs.foldl max x
  | z :: ys, x, y, hy => by
    rcases List.mem_cons.mp hy with rfl | h
    · exact le_trans (le_max_right x y) (foldl_max_init_le ys (max x y))
    · exact foldl_max_mem_le ys (max x z) y h

theorem foldl_max_mem : ∀ (xs : List Nat) (x : Nat), xs.foldl max x ∈ x :: xs
  | [], x => by simp
  | y :: ys, x => by
    have h := foldl_max_mem ys (max x y)
    simp only [List.foldl_cons]
    rcases List.mem_cons.mp h with he | h2
    · rw [he]
      rcases le_total x y with hxy | hyx
      · rw [max_eq_right hxy]
        simp
      · rw [max_eq_left hyx]
        simp
    · exact List.mem_cons_of_mem _ (List.mem_cons_of_mem _ h2)

theorem listMax?_spec : ∀ (l : List Nat) (m : Nat), listMax? l = some m →
    m ∈ l ∧ ∀ y ∈ l, y ≤ m
  | [], m, h => by simp [listMax?] at h
  | x :: xs, m, h => by
    simp only [listMax?, Option.some.injEq] at h
    subst h
    refine ⟨foldl_max_mem xs x, ?_⟩
    intro y hy
    rcases List.mem_cons.mp hy with rfl | h2
    · exact foldl_max_init_le xs y
    · exact foldl_max_mem_le xs x y h2

theorem listMax?_eq_some (l : List Nat) (v : Nat) (hmem : v ∈ l) (hub : ∀ x ∈ l, x ≤ v) :
    listMax? l = some v := by
  match l with
  | [] => cases hmem
  | x :: xs =>
    obtain ⟨hm, hall⟩ := listMax?_spec (x :: xs) (xs.foldl max x) rfl
    simp only [listMax?, Option.some.injEq]
    exact le_antisymm (hub _ hm) (hall v hmem)

theorem bitLengthAux_lt : ∀ (fuel n : Nat), n ≤ fuel → n < 2 ^ bitLengthAux fuel n
  | 0, n, h => by
    have hn : n = 0 := Nat.le_zero.mp h
    subst hn
    simp [bitLengthAux]
  | fuel + 1, n, h => by
    simp only [bitLengthAux]
    split_ifs with h0
    · simp [h0]
    · have hle : n / 2 ≤ fuel := by omega
      have ih := bitLengthAux_lt fuel (n / 2) hle
      have hp : 2 ^ (bitLengthAux fuel (n / 2) + 1) = 2 * 2 ^ bitLengthAux fuel (n / 2) := by
        rw [Nat.pow_succ]
        ring
      omega

theorem bitLengthAux_min : ∀ (fuel n k : Nat), n ≤ fuel → n < 2 ^ k → bitLengthAux fuel n ≤ k
  | 0, n, k, h, _ => by
    have hn : n = 0 := Nat.le_zero.mp h
    subst hn
    simp [bitLengthAux]
  | fuel + 1, n, k, h, hk => by
    simp only [bitLengthAux]
    split_ifs with h0
    · simp
    · match k with
      | 0 =>
        exfalso
        norm_num at hk
        omega
      | j + 1 =>
        have hle : n / 2 ≤ fuel := by omega
        have hj : n / 2 < 2 ^ j := by
          have hp : 2 ^ (j + 1) = 2 * 2 ^ j := by
            rw [Nat.pow_succ]
            ring
          omega
        have := bitLengthAux_min fuel (n / 2) j hle hj
        omega

theorem bit_length_lt (n : Nat) : n < 2 ^ bit_length n := bitLengthAux_lt n n le_rfl

theorem bit_length_min (n k : Nat) (h : n < 2 ^ k) : bit_length n ≤ k :=
  bitLengthAux_min n n k le_rfl h

theorem registerSizeBits_spec (m : Nat) :
    (∃ k, registerSizeBits m = 2 ^ k) ∧ 8 ≤ registerSizeBits m ∧ m ≤ registerSizeBits m ∧
    ∀ c : Nat, (∃ k, c = 2 ^ k) → 8 ≤ c → m ≤ c → registerSizeBits m ≤ c := by
  unfold registerSizeBits
  refine ⟨?_, le_max_right _ _, ?_, ?_⟩
  · rcases le_total (2 ^ bit_length (m - 1)) 8 with h | h
    · refine ⟨3, ?_⟩
      rw [max_eq_right h]
      norm_num
    · exact ⟨bit_length (m - 1), max_eq_left h⟩
  · have h1 : m - 1 < 2 ^ bit_length (m - 1) := bit_length_lt (m - 1)
    have h2 := le_max_left (2 ^ bit_length (m - 1)) 8
    omega
  · rintro c ⟨k, rfl⟩ h8 hmc
    have hb : bit_length (m - 1) ≤ k := by
      apply bit_length_min
      omega
    have h2 : 2 ^ bit_length (m - 1) ≤ 2 ^ k := Nat.pow_le_pow_right (by omega) hb
    omega

-- ------------------------------------------------------------------
-- Helpers about interval subtraction (chop)
-- ------------------------------------------------------------------

theorem chopPiece_mem (b e u v x : Nat) :
    (∃ p ∈ chopPiece b e (u, v), p.1 ≤ x ∧ x < p.2) ↔
      (u ≤ x ∧ x < v) ∧ ¬ (b ≤ x ∧ x < e) := by
  simp only [chopPiece, List.mem_append]
  split_ifs with h1 h2 h2 <;> simp <;> omega

theorem chopPiece_subset (b e u v p1 p2 : Nat)
    (hp : (p1, p2) ∈ chopPiece b e (u, v)) :
    u ≤ p1 ∧ p2 ≤ v ∧ p1 < p2 := by
  simp only [chopPiece, List.mem_append] at hp
  rcases hp with hp | hp
  · by_cases h1 : u < min v b
    · simp only [h1, if_true, List.mem_singleton, Prod.mk.injEq] at hp
      obtain ⟨rfl, rfl⟩ := hp
      omega
    · simp [h1] at hp
  · by_cases h2 : max u e < v
    · simp only [h2, if_true, List.mem_singleton, Prod.mk.injEq] at hp
      obtain ⟨rfl, rfl⟩ := hp
      omega
    · simp [h2] at hp

theorem chopPiece_pairwise (b e : Nat) (iv : Nat × Nat) (hbe : b ≤ e) :
    List.Pairwise (fun p q : Nat × Nat => p.2 ≤ q.1) (chopPiece b e iv) := by
  rcases iv with ⟨u, v⟩
  simp only [chopPiece]
  split_ifs with h1 h2 h2 <;> simp [List.pairwise_cons] <;> omega

theorem chopList_mem (l : List (Nat × Nat)) (b e x : Nat) :
    memIv (chopList l b e) x ↔ memIv l x ∧ ¬ (b ≤ x ∧ x < e) := by
  unfold memIv chopList
  constructor
  · rintro ⟨p, hp, hx⟩
    obtain ⟨iv, hiv, hpiv⟩ := List.mem_flatMap.mp hp
    rcases iv with ⟨u, v⟩
    have h := (chopPiece_mem b e u v x).mp ⟨p, hpiv, hx⟩
    exact ⟨⟨(u, v), hiv, h.1⟩, h.2⟩
  · rintro ⟨⟨⟨u, v⟩, hiv, hx⟩, hmid⟩
    obtain ⟨p, hp, hpx⟩ := (chopPiece_mem b e u v x).mpr ⟨hx, hmid⟩
    exact ⟨p, List.mem_flatMap.mpr ⟨(u, v), hiv, hp⟩, hpx⟩

theorem chopList_sortedDisj : ∀ (l : List (Nat × Nat)) (b e : Nat), b ≤ e →
    ivSortedDisj l → ivSortedDisj (chopList l b e)
  | [], b, e, hbe, _ => by simp [chopList, ivSortedDisj]
  | iv :: rest, b, e, hbe, h => by
    obtain ⟨hpair, hproper⟩ := h
    have hrest : ivSortedDisj rest :=
      ⟨(List.pairwise_cons.mp hpair).2, fun p hp => hproper p (List.mem_cons_of_mem _ hp)⟩
    obtain ⟨ihp, ihproper⟩ := chopList_sortedDisj rest b e hbe hrest
    have hsplit : chopList (iv :: rest) b e = chopPiece b e iv ++ chopList rest b e := by
      simp [chopList]
    rw [hsplit]
    constructor
    · rw [List.pairwise_append]
      refine ⟨chopPiece_pairwise b e iv hbe, ihp, ?_⟩
      intro p hp q hq
      obtain ⟨qiv, hqiv, hqp⟩ := List.mem_flatMap.mp hq
      rcases iv with ⟨u, v⟩
      rcases p with ⟨p1, p2⟩
      rcases q with ⟨q1, q2⟩
      rcases qiv with ⟨w1, w2⟩
      have hps := chopPiece_subset b e u v p1 p2 hp
      have hqs := chopPiece_subset b e w1 w2 q1 q2 hqp
      have hvw : v ≤ w1 := (List.pairwise_cons.mp hpair).1 (w1, w2) hqiv
      show p2 ≤ q1
      omega
    · intro p hp
      rcases List.mem_append.mp hp with hmem | hmem
      · rcases iv with ⟨u, v⟩
        rcases p with ⟨p1, p2⟩
        exact (chopPiece_subset b e u v p1 p2 hmem).2.2
      · exact ihproper p hmem

theorem foldl_chop_sortedDisj : ∀ (covered acc : List (Nat × Nat)),
    (∀ c ∈ covered, c.1 ≤ c.2) → ivSortedDisj acc →
    ivSortedDisj (covered.foldl (fun acc c => chopList acc c.1 c.2) acc)
  | [], acc, _, h => by simpa using h
  | c :: cs, acc, hc, h => by
    simp only [List.foldl_cons]
    exact foldl_chop_sortedDisj cs _ (fun x hx => hc x (List.mem_cons_of_mem _ hx))
      (chopList_sortedDisj acc c.1 c.2 (hc c (by simp)) h)

theorem get_uncovered_sortedDisj (domain : Nat × Nat) (covered : List (Nat × Nat))
    (hc : ∀ c ∈ covered, c.1 ≤ c.2) (hd : domain.1 < domain.2) :
    ivSortedDisj (get_uncovered_intervals domain covered) := by
  refine foldl_chop_sortedDisj covered [domain] hc ⟨List.pairwise_singleton _ _, ?_⟩
  intro p hp
  simp only [List.mem_singleton] at hp
  subst hp
  exact hd

theorem get_uncovered_mem_aux : ∀ (covered acc : List (Nat × Nat)) (x : Nat),
    memIv (covered.foldl (fun acc c => chopList acc c.1 c.2) acc) x ↔
      memIv acc x ∧ ∀ c ∈ covered, ¬ (c.1 ≤ x ∧ x < c.2)
  | [], acc, x => by simp
  | c :: cs, acc, x => by
    simp only [List.foldl_cons]
    rw [get_uncovered_mem_aux cs (chopList acc c.1 c.2) x, chopList_mem]
    constructor
    · rintro ⟨⟨h1, h2⟩, h3⟩
      refine ⟨h1, ?_⟩
      intro c' hc'
      rcases List.mem_cons.mp hc' with rfl | hmem
      · exact h2
      · exact h3 c' hmem
    · rintro ⟨h1, h2⟩
      exact ⟨⟨h1, h2 c (by simp)⟩, fun c' hc' => h2 c' (List.mem_cons_of_mem _ hc')⟩

theorem get_uncovered_mem (domain : Nat × Nat) (covered : List (Nat × Nat)) (x : Nat) :
    memIv (get_uncovered_intervals domain covered) x ↔
      (domain.1 ≤ x ∧ x < domain.2) ∧ ∀ c ∈ covered, ¬ (c.1 ≤ x ∧ x < c.2) := by
  unfold get_uncovered_intervals
  rw [get_uncovered_mem_aux]
  simp [memIv]

-- ------------------------------------------------------------------
-- The success path of create_register
-- ------------------------------------------------------------------

theorem create_register_ok_extract (group_name : String) (group : Option RawGroup)
    (fields : List RawField) (reg : Register)
    (h : create_register group_name group fields = .ok reg) :
    ∃ m mx,
      listMin? (fields.map (fun f => f.bitRange.base)) = some m ∧
      m % 8 = 0 ∧
      listMax? ((newFields m fields).map (fun f => f.bits.stop)) = some mx ∧
      m % registerSizeBits mx = 0 ∧
      (∀ f ∈ newFields m fields, f.bits.begin < f.bits.stop) ∧
      reg.byte_offset = m / 8 ∧
      reg.name = group_name ∧
      reg.fields = sortFieldsByBegin
        (newFields m fields ++
          (get_uncovered_intervals (0, registerSizeBits mx)
            ((newFields m fields).map (fun f => (f.bits.begin, f.bits.stop)))).map
          (fun g => RegisterField.reserved ⟨g.1, g.2⟩)) := by
  unfold create_register at h
  rcases hmin : listMin? (fields.map (fun f => f.bitRange.base)) with _ | m
  · simp only [hmin] at h
    cases h
  · simp only [hmin] at h
    split_ifs at h with h8
    · rcases hmax : listMax? ((newFields m fields).map (fun f => f.bits.stop)) with _ | mx
      · simp only [hmax] at h
        cases h
      · simp only [hmax] at h
        split_ifs at h with hal
        · rcases hfill : fill_reserved_fields (newFields m fields) (registerSizeBits mx)
            with e | filled
          · simp only [hfill] at h
            cases h
          · simp only [hfill] at h
            unfold fill_reserved_fields at hfill
            split_ifs at hfill with hall hz
            have hfeq := Except.ok.inj hfill
            subst hfeq
            have hreg := Except.ok.inj h
            subst hreg
            refine ⟨m, mx, hmin, by omega, hmax, by omega, ?_, rfl, rfl, rfl⟩
            intro f hf
            exact of_decide_eq_true (List.all_eq_true.mp hall f hf)

theorem create_register_ok_construct (group_name : String) (group : Option RawGroup)
    (fields : List RawField) (m mx : Nat)
    (hmin : listMin? (fields.map (fun f => f.bitRange.base)) = some m)
    (h8 : m % 8 = 0)
    (hmax : listMax? ((newFields m fields).map (fun f => f.bits.stop)) = some mx)
    (hal : m % registerSizeBits mx = 0)
    (hproper : ∀ f ∈ newFields m fields, f.bits.begin < f.bits.stop) :
    ∃ reg, create_register group_name group fields = .ok reg := by
  unfold create_register
  simp only [hmin, hmax]
  rw [if_neg (by omega), if_neg (by omega)]
  have hR : 8 ≤ registerSizeBits mx := (registerSizeBits_spec mx).2.1
  have hfill : fill_reserved_fields (newFields m fields) (registerSizeBits mx) =
      .ok ((newFields m fields) ++
        (get_uncovered_intervals (0, registerSizeBits mx)
          ((newFields m fields).map (fun f => (f.bits.begin, f.bits.stop)))).map
        (fun g => RegisterField.reserved ⟨g.1, g.2⟩)) := by
    unfold fill_reserved_fields
    rw [if_pos, if_neg (by omega)]
    exact List.all_eq_true.mpr (fun f hf => decide_eq_true (hproper f hf))
  rw [hfill]
  exact ⟨_, rfl⟩

-- Coverage of [0, R) by the real fields plus the synthesized reserved fill.
theorem fields_plus_gaps_cover (nf : List RegisterField) (R mx b : Nat)
    (hmax : listMax? (nf.map (fun f => f.bits.stop)) = some mx)
    (hmxR : mx ≤ R) :
    (∃ f ∈ nf ++ (get_uncovered_intervals (0, R)
        (nf.map (fun f => (f.bits.begin, f.bits.stop)))).map
        (fun g => RegisterField.reserved ⟨g.1, g.2⟩),
      f.bits.begin ≤ b ∧ b < f.bits.stop) ↔ b < R := by
  constructor
  · rintro ⟨f, hf, hb1, hb2⟩
    rcases List.mem_append.mp hf with hmem | hmem
    · have := (listMax?_spec _ _ hmax).2 f.bits.stop (List.mem_map.mpr ⟨f, hmem, rfl⟩)
      omega
    · obtain ⟨g, hg, rfl⟩ := List.mem_map.mp hmem
      have hm : memIv (get_uncovered_intervals (0, R)
          (nf.map (fun f => (f.bits.begin, f.bits.stop)))) b := ⟨g, hg, hb1, hb2⟩
      exact ((get_uncovered_mem _ _ b).mp hm).1.2
  · intro hbR
    by_cases hcov : ∃ f ∈ nf, f.bits.begin ≤ b ∧ b < f.bits.stop
    · obtain ⟨f, hf, hb⟩ := hcov
      exact ⟨f, List.mem_append.mpr (Or.inl hf), hb⟩
    · have hm : memIv (get_uncovered_intervals (0, R)
          (nf.map (fun f => (f.bits.begin, f.bits.stop)))) b := by
        rw [get_uncovered_mem]
        refine ⟨⟨Nat.zero_le b, hbR⟩, ?_⟩
        rintro c hc ⟨hc1, hc2⟩
        obtain ⟨f, hf, rfl⟩ := List.mem_map.mp hc
        exact hcov ⟨f, hf, hc1, hc2⟩
      obtain ⟨g, hg, hgb⟩ := hm
      exact ⟨RegisterField.reserved ⟨g.1, g.2⟩,
        List.mem_append.mpr (Or.inr (List.mem_map.mpr ⟨g, hg, rfl⟩)), hgb⟩

theorem mem_sortFields (l : List RegisterField) (f : RegisterField) :
    f ∈ sortFieldsByBegin l ↔ f ∈ l := by
  unfold sortFieldsByBegin
  exact (List.perm_insertionSort _ l).mem_iff

theorem exists_mem_sortFields (l : List RegisterField) (P : RegisterField → Prop) :
    (∃ f ∈ sortFieldsByBegin l, P f) ↔ ∃ f ∈ l, P f := by
  constructor
  · rintro ⟨f, hf, hp⟩
    exact ⟨f, (mem_sortFields l f).mp hf, hp⟩
  · rintro ⟨f, hf, hp⟩
    exact ⟨f, (mem_sortFields l f).mpr hf, hp⟩

-- ------------------------------------------------------------------
-- C3 : every synthesized register tiles its bit range
-- ------------------------------------------------------------------

/-- C3 (amended): every register successfully produced by create_register
has its final fields sorted ascending by bit start and their ranges cover
every bit of [0, registerSizeBits) with no gap; when the converted real
fields are pairwise disjoint the final fields are pairwise disjoint as well,
so each bit is covered exactly once; but create_register accepts overlapping
raw fields, and then some bit is covered by more than one field, so the
exactly-once part of the claim holds only under that disjointness
condition. -/
theorem create_register_tiling (group_name : String) (group : Option RawGroup)
    (fields : List RawField) (reg : Register)
    (h : create_register group_name group fields = .ok reg) :
    ∃ m mx,
      listMin? (fields.map (fun f => f.bitRange.base)) = some m ∧
      listMax? ((newFields m fields).map (fun f => f.bits.stop)) = some mx ∧
      8 ≤ registerSizeBits mx ∧
      (∀ b : Nat, (∃ f ∈ reg.fields, f.bits.begin ≤ b ∧ b < f.bits.stop) ↔
        b < registerSizeBits mx) ∧
      List.Pairwise (fun f g => f.bits.begin ≤ g.bits.begin) reg.fields ∧
      (List.Pairwise (fun f g => f.bits.stop ≤ g.bits.begin ∨ g.bits.stop ≤ f.bits.begin)
          (newFields m fields) →
        List.Pairwise (fun f g => f.bits.stop ≤ g.bits.begin ∨ g.bits.stop ≤ f.bits.begin)
          reg.fields) := by
  obtain ⟨m, mx, hmin, h8, hmax, hal, hproper, hoff, hname, hfields⟩ :=
    create_register_ok_extract group_name group fields reg h
  have hspec := registerSizeBits_spec mx
  have hR8 : 8 ≤ registerSizeBits mx := hspec.2.1
  have hmxR : mx ≤ registerSizeBits mx := hspec.2.2.1
  have hsd := get_uncovered_sortedDisj (0, registerSizeBits mx)
    ((newFields m fields).map (fun f => (f.bits.begin, f.bits.stop)))
    (by
      intro c hc
      obtain ⟨f, hf, rfl⟩ := List.mem_map.mp hc
      exact le_of_lt (hproper f hf))
    (by
      show 0 < registerSizeBits mx
      omega)
  refine ⟨m, mx, hmin, hmax, hR8, ?_, ?_, ?_⟩
  · intro b
    rw [hfields, exists_mem_sortFields]
    exact fields_plus_gaps_cover (newFields m fields) (registerSizeBits mx) mx b hmax hmxR
  · rw [hfields]
    exact insertionSort_key_sorted (fun f : RegisterField => f.bits.begin) _
  · intro hdisj
    rw [hfields]
    have hsym : ∀ x y : RegisterField,
        (x.bits.stop ≤ y.bits.begin ∨ y.bits.stop ≤ x.bits.begin) →
        (y.bits.stop ≤ x.bits.begin ∨ x.bits.stop ≤ y.bits.begin) := fun x y hx => hx.symm
    refine ((List.perm_insertionSort
        (fun a b : RegisterField => a.bits.begin ≤ b.bits.begin) _).pairwise_iff
        (fun {x y} hxy => hsym x y hxy)).mpr ?_
    rw [List.pairwise_append]
    refine ⟨hdisj, ?_, ?_⟩
    · rw [List.pairwise_map]
      exact hsd.1.imp (fun hpq => Or.inl hpq)
    · intro f hf g hg
      obtain ⟨gp, hgp, rfl⟩ := List.mem_map.mp hg
      by_contra hno
      obtain ⟨hn1, hn2⟩ := not_or.mp hno
      have hn1' : gp.1 < f.bits.stop := by
        have : ¬ (f.bits.stop ≤ gp.1) := hn1
        omega
      have hn2' : f.bits.begin < gp.2 := by
        have : ¬ (gp.2 ≤ f.bits.begin) := hn2
        omega
      have hgproper : gp.1 < gp.2 := hsd.2 gp hgp
      have hfproper : f.bits.begin < f.bits.stop := hproper f hf
      have hxmem : memIv (get_uncovered_intervals (0, registerSizeBits mx)
          ((newFields m fields).map (fun f => (f.bits.begin, f.bits.stop))))
          (max f.bits.begin gp.1) := ⟨gp, hgp, by omega, by omega⟩
      have hnc := ((get_uncovered_mem _ _ _).mp hxmem).2 (f.bits.begin, f.bits.stop)
        (List.mem_map.mpr ⟨f, hf, rfl⟩)
      have hnc2 : ¬ (f.bits.begin ≤ max f.bits.begin gp.1 ∧
          max f.bits.begin gp.1 < f.bits.stop) := hnc
      exact hnc2 ⟨by omega, by omega⟩

/-- C3 counterexample: the two raw fields over bits [0,8) and [2,6) overlap;
create_register still succeeds and bit 2 of the resulting register is
covered by two fields, not exactly one as the claim states. -/
theorem create_register_tiling_counterexample :
    ((create_register "G" none
        [RawField.mk (RawDescription.mk "a" (some "G") .RW none "d") (RawBitRange.mk 0 8),
         RawField.mk (RawDescription.mk "b" (some "G") .RW none "e") (RawBitRange.mk 2 4)]).toOption.map
      (fun reg => reg.fields.countP
        (fun f => decide (f.bits.begin ≤ 2) && decide (2 < f.bits.stop)))) = some 2 := by
  decide

/-- C3 witness: the theorem applied to the CTRL example with disjoint fields
A over [0,8) and B over [8,16); the resulting fields are sorted by bit
start. -/
theorem create_register_tiling_witness :
    List.Pairwise (fun f g => f.bits.begin ≤ g.bits.begin)
      (Register.mk 0 "CTRL" ""
        [RegisterField.mk (BitFieldRange.mk 0 8) "A" .RW none "da",
         RegisterField.mk (BitFieldRange.mk 8 16) "B" .RO none "db"]).fields := by
  obtain ⟨m, mx, _, _, _, _, hsorted, _⟩ := create_register_tiling "CTRL" none
    [RawField.mk (RawDescription.mk "A" (some "CTRL") .RW none "da") (RawBitRange.mk 0 8),
     RawField.mk (RawDescription.mk "B" (some "CTRL") .R none "db") (RawBitRange.mk 8 8)]
    (Register.mk 0 "CTRL" ""
      [RegisterField.mk (BitFieldRange.mk 0 8) "A" .RW none "da",
       RegisterField.mk (BitFieldRange.mk 8 16) "B" .RO none "db"])
    (by decide)
  exact hsorted

-- ------------------------------------------------------------------
-- C7 : register size and byte offset
-- ------------------------------------------------------------------

/-- C7: for every successful register synthesis with minimum absolute bit
offset m and maximum relative field end mx, the register byte offset is
m / 8, and the register size in bits (observable as the maximum field end
after reserved filling) is max(2 ^ bit_length(mx - 1), 8) = registerSizeBits
mx, a power of two that is at least 8 and at least mx and minimal with those
properties. -/
theorem create_register_size_spec (group_name : String) (group : Option RawGroup)
    (fields : List RawField) (reg : Register) (m mx : Nat)
    (hmin : listMin? (fields.map (fun f => f.bitRange.base)) = some m)
    (hmax : listMax? ((newFields m fields).map (fun f => f.bits.stop)) = some mx)
    (h : create_register group_name group fields = .ok reg) :
    reg.byte_offset = m / 8 ∧
    listMax? (reg.fields.map (fun f => f.bits.stop)) = some (registerSizeBits mx) ∧
    registerSizeBits mx = max (2 ^ bit_length (mx - 1)) 8 ∧
    (∃ k, registerSizeBits mx = 2 ^ k) ∧ 8 ≤ registerSizeBits mx ∧
    mx ≤ registerSizeBits mx ∧
    (∀ c : Nat, (∃ k, c = 2 ^ k) → 8 ≤ c → mx ≤ c → registerSizeBits mx ≤ c) := by
  obtain ⟨m', mx', hmin', h8, hmax', hal, hproper, hoff, hname, hfields⟩ :=
    create_register_ok_extract group_name group fields reg h
  have hm : m = m' := Option.some.inj (hmin.symm.trans hmin')
  subst hm
  have hmx : mx = mx' := Option.some.inj (hmax.symm.trans hmax')
  subst hmx
  have hspec := registerSizeBits_spec mx
  have hR8 : 8 ≤ registerSizeBits mx := hspec.2.1
  have hmxR : mx ≤ registerSizeBits mx := hspec.2.2.1
  have hsd := get_uncovered_sortedDisj (0, registerSizeBits mx)
    ((newFields m fields).map (fun f => (f.bits.begin, f.bits.stop)))
    (by
      intro c hc
      obtain ⟨f, hf, rfl⟩ := List.mem_map.mp hc
      exact le_of_lt (hproper f hf))
    (by
      show 0 < registerSizeBits mx
      omega)
  have hub : ∀ f ∈ reg.fields, f.bits.stop ≤ registerSizeBits mx := by
    intro f hf
    rw [hfields, mem_sortFields] at hf
    rcases List.mem_append.mp hf with hmem | hmem
    · have := (listMax?_spec _ _ hmax').2 f.bits.stop (List.mem_map.mpr ⟨f, hmem, rfl⟩)
      omega
    · obtain ⟨gp, hgp, rfl⟩ := List.mem_map.mp hmem
      have hgproper : gp.1 < gp.2 := hsd.2 gp hgp
      have hxmem : memIv (get_uncovered_intervals (0, registerSizeBits mx)
          ((newFields m fields).map (fun f => (f.bits.begin, f.bits.stop))))
          (gp.2 - 1) := ⟨gp, hgp, by omega, by omega⟩
      have := ((get_uncovered_mem _ _ _).mp hxmem).1.2
      show gp.2 ≤ registerSizeBits mx
      omega
  have hcover : ∃ f ∈ reg.fields, f.bits.begin ≤ registerSizeBits mx - 1 ∧
      registerSizeBits mx - 1 < f.bits.stop := by
    rw [hfields, exists_mem_sortFields]
    exact (fields_plus_gaps_cover (newFields m fields) (registerSizeBits mx) mx
      (registerSizeBits mx - 1) hmax' hmxR).mpr (by omega)
  refine ⟨hoff, ?_, rfl, hspec.1, hR8, hmxR, hspec.2.2.2⟩
  obtain ⟨f, hf, hb1, hb2⟩ := hcover
  have hfstop : f.bits.stop = registerSizeBits mx := by
    have := hub f hf
    omega
  refine listMax?_eq_some _ _ ?_ ?_
  · exact List.mem_map.mpr ⟨f, hf, hfstop⟩
  · intro x hx
    obtain ⟨g, hg, rfl⟩ := List.mem_map.mp hx
    exact hub g hg

/-- C7 witness: the theorem applied to a single raw field over absolute bits
[0,4), giving an 8-bit register at byte offset 0 whose fields are the real
field over [0,4) followed by a reserved field over [4,8). -/
theorem create_register_size_spec_witness :
    create_register "X" none
        [RawField.mk (RawDescription.mk "f" none .RW none "d") (RawBitRange.mk 0 4)] =
      .ok (Register.mk 0 "X" "d"
        [RegisterField.mk (BitFieldRange.mk 0 4) "f" .RW none "d",
         RegisterField.mk (BitFieldRange.mk 4 8) "reserved" .RO (some 0) ""]) ∧
    (Register.mk 0 "X" "d"
        [RegisterField.mk (BitFieldRange.mk 0 4) "f" .RW none "d",
         RegisterField.mk (BitFieldRange.mk 4 8) "reserved" .RO (some 0) ""]).byte_offset =
      0 / 8 ∧
    listMax? ((Register.mk 0 "X" "d"
        [RegisterField.mk (BitFieldRange.mk 0 4) "f" .RW none "d",
         RegisterField.mk (BitFieldRange.mk 4 8) "reserved" .RO (some 0) ""]).fields.map
      (fun f => f.bits.stop)) = some (registerSizeBits 4) := by
  have h := create_register_size_spec "X" none
    [RawField.mk (RawDescription.mk "f" none .RW none "d") (RawBitRange.mk 0 4)]
    (Register.mk 0 "X" "d"
      [RegisterField.mk (BitFieldRange.mk 0 4) "f" .RW none "d",
       RegisterField.mk (BitFieldRange.mk 4 8) "reserved" .RO (some 0) ""])
    0 4 (by decide) (by decide) (by decide)
  exact ⟨by decide, h.1, h.2.1⟩

-- ------------------------------------------------------------------
-- C8 : alignment errors
-- ------------------------------------------------------------------

-- Exhaustive case analysis of create_register for a group with a minimum
-- bit offset.
theorem create_register_cases (group_name : String) (group : Option RawGroup)
    (fields : List RawField) (m : Nat)
    (hmin : listMin? (fields.map (fun f => f.bitRange.base)) = some m) :
    (m % 8 ≠ 0 ∧
      create_register group_name group fields = .error (.notByteAligned group_name)) ∨
    (m % 8 = 0 ∧ listMax? ((newFields m fields).map (fun f => f.bits.stop)) = none ∧
      create_register group_name group fields = .error (.maxOfEmpty group_name)) ∨
    (∃ mx, m % 8 = 0 ∧
      listMax? ((newFields m fields).map (fun f => f.bits.stop)) = some mx ∧
      m % registerSizeBits mx ≠ 0 ∧
      create_register group_name group fields =
        .error (.misaligned group_name m (registerSizeBits mx))) ∨
    (∃ mx, m % 8 = 0 ∧
      listMax? ((newFields m fields).map (fun f => f.bits.stop)) = some mx ∧
      m % registerSizeBits mx = 0 ∧
      (((¬ ∀ f ∈ newFields m fields, f.bits.begin < f.bits.stop) ∧
          create_register group_name group fields = .error .nullInterval) ∨
        ((∀ f ∈ newFields m fields, f.bits.begin < f.bits.stop) ∧
          ∃ reg, create_register group_name group fields = .ok reg))) := by
  by_cases h8 : m % 8 = 0
  · rcases hmax : listMax? ((newFields m fields).map (fun f => f.bits.stop)) with _ | mx
    · refine Or.inr (Or.inl ⟨h8, hmax, ?_⟩)
      unfold create_register
      simp only [hmin, hmax]
      rw [if_neg (by omega)]
    · by_cases hal : m % registerSizeBits mx = 0
      · refine Or.inr (Or.inr (Or.inr ⟨mx, h8, hmax, hal, ?_⟩))
        by_cases hp : ∀ f ∈ newFields m fields, f.bits.begin < f.bits.stop
        · exact Or.inr ⟨hp,
            create_register_ok_construct group_name group fields m mx hmin h8 hmax hal hp⟩
        · refine Or.inl ⟨hp, ?_⟩
          unfold create_register
          simp only [hmin, hmax]
          rw [if_neg (by omega), if_neg (by omega)]
          have hfill : fill_reserved_fields (newFields m fields) (registerSizeBits mx) =
              .error .nullInterval := by
            unfold fill_reserved_fields
            rw [if_neg]
            intro hcon
            exact hp (fun f hf => of_decide_eq_true (List.all_eq_true.mp hcon f hf))
          rw [hfill]
      · refine Or.inr (Or.inr (Or.inl ⟨mx, h8, hmax, hal, ?_⟩))
        unfold create_register
        simp only [hmin, hmax]
        rw [if_neg (by omega), if_pos (by omega)]
  · refine Or.inl ⟨h8, ?_⟩
    unfold create_register
    simp only [hmin]
    rw [if_pos h8]

/-- C8 (amended): with m the minimum absolute bit offset of a group,
create_register fails with the byte-alignment error iff m % 8 ≠ 0; any
misalignment error carries offset m and size registerSizeBits mx with m
byte-aligned and not size-aligned, and conversely a byte-aligned group whose
converted non-reserved fields have maximum end mx with m % registerSizeBits
mx ≠ 0 fails with exactly that misalignment error; a group passing both
checks produces a register provided it contains at least one field not named
"reserved" (so mx exists) and every converted field has positive size — an
all-reserved group instead fails on max() of an empty sequence (see the
counterexample). -/
theorem create_register_alignment_spec (group_name : String) (group : Option RawGroup)
    (fields : List RawField) (m : Nat)
    (hmin : listMin? (fields.map (fun f => f.bitRange.base)) = some m) :
    (create_register group_name group fields = .error (.notByteAligned group_name) ↔
      m % 8 ≠ 0) ∧
    (∀ off sz, create_register group_name group fields =
        .error (.misaligned group_name off sz) →
      off = m ∧ m % 8 = 0 ∧
      ∃ mx, listMax? ((newFields m fields).map (fun f => f.bits.stop)) = some mx ∧
        sz = registerSizeBits mx ∧ m % registerSizeBits mx ≠ 0) ∧
    (∀ mx, m % 8 = 0 →
      listMax? ((newFields m fields).map (fun f => f.bits.stop)) = some mx →
      m % registerSizeBits mx ≠ 0 →
      create_register group_name group fields =
        .error (.misaligned group_name m (registerSizeBits mx))) ∧
    (∀ mx, m % 8 = 0 →
      listMax? ((newFields m fields).map (fun f => f.bits.stop)) = some mx →
      m % registerSizeBits mx = 0 →
      (∀ f ∈ newFields m fields, f.bits.begin < f.bits.stop) →
      ∃ reg, create_register group_name group fields = .ok reg) := by
  have hc := create_register_cases group_name group fields m hmin
  refine ⟨⟨?_, ?_⟩, ?_, ?_, ?_⟩
  · intro h
    rcases hc with ⟨h8, _⟩ | ⟨h8, _, he⟩ | ⟨mx, h8, _, _, he⟩ | ⟨mx, h8, _, _, hrest⟩
    · exact h8
    · rw [he] at h
      simp at h
    · rw [he] at h
      simp at h
    · rcases hrest with ⟨_, he⟩ | ⟨_, reg, he⟩
      · rw [he] at h
        simp at h
      · rw [he] at h
        simp at h
  · intro h8
    rcases hc with ⟨_, he⟩ | ⟨h8', _, _⟩ | ⟨mx, h8', _⟩ | ⟨mx, h8', _⟩
    · exact he
    · exact absurd h8' h8
    · exact absurd h8' h8
    · exact absurd h8' h8
  · intro off sz h
    rcases hc with ⟨_, he⟩ | ⟨_, _, he⟩ | ⟨mx, h8, hmx, hal, he⟩ | ⟨mx, _, _, _, hrest⟩
    · rw [he] at h
      simp at h
    · rw [he] at h
      simp at h
    · rw [he] at h
      have h2 := Except.error.inj h
      injection h2 with e1 e2 e3
      exact ⟨e2.symm, h8, mx, hmx, e3.symm, hal⟩
    · rcases hrest with ⟨_, he⟩ | ⟨_, reg, he⟩ <;> rw [he] at h <;> simp at h
  · intro mx h8 hmx hal
    unfold create_register
    simp only [hmin, hmx]
    rw [if_neg (by omega), if_pos (by omega)]
  · intro mx h8 hmx hal hp
    exact create_register_ok_construct group_name group fields m mx hmin h8 hmx hal hp

/-- C8 counterexample: a group whose only field is named "reserved" passes
the byte-alignment check (minimum offset 0) yet produces no register and
raises neither alignment error: it fails on max() over the empty list of
converted fields. -/
theorem create_register_alignment_counterexample :
    create_register "G" none
        [RawField.mk (RawDescription.mk "reserved" (some "G") .R none "")
          (RawBitRange.mk 0 4)] =
      .error (.maxOfEmpty "G") ∧
    listMin? ([RawField.mk (RawDescription.mk "reserved" (some "G") .R none "")
        (RawBitRange.mk 0 4)].map (fun f => f.bitRange.base)) = some 0 ∧
    (0 : Nat) % 8 = 0 := by
  decide

/-- C8 witness: the theorem applied to a single real field over [0,8), which
passes both alignment checks and produces a register. -/
theorem create_register_alignment_spec_witness :
    ∃ reg, create_register "W" none
      [RawField.mk (RawDescription.mk "x" none .RW none "d") (RawBitRange.mk 0 8)] =
      .ok reg := by
  exact (create_register_alignment_spec "W" none
    [RawField.mk (RawDescription.mk "x" none .RW none "d") (RawBitRange.mk 0 8)]
    0 (by decide)).2.2.2 8 (by decide) (by decide) (by decide) (by decide)

-- ------------------------------------------------------------------
-- C10 : raw fields named "reserved" inside a named group
-- ------------------------------------------------------------------

/-- C10 (amended): when a group holds a raw field f named "reserved" (which
lands in a non-"reserved" group exactly when the group key is its explicit
group annotation), f still participates in the group minimum m — m is at
most f's base, the register byte offset is m / 8 and both alignment checks
test m — while f is excluded from the register's fields: every final field
not named "reserved" converts a non-reserved raw field, every final field
named "reserved" is synthesized fill, and each bit of the register not
covered by a real field (in particular the in-range uncovered part of f's
bit range) is covered by a reserved fill field.  The fill does not cover the
parts of f's range that remaining real fields already cover (see the
counterexample). -/
theorem create_register_reserved_participation (group_name : String)
    (group : Option RawGroup) (fields : List RawField) (f : RawField) (reg : Register)
    (hf : f ∈ fields) (hres : f.description.name = reservedName)
    (h : create_register group_name group fields = .ok reg) :
    ∃ m mx,
      listMin? (fields.map (fun ff => ff.bitRange.base)) = some m ∧
      m ≤ f.bitRange.base ∧
      reg.byte_offset = m / 8 ∧
      m % 8 = 0 ∧
      listMax? ((newFields m fields).map (fun ff => ff.bits.stop)) = some mx ∧
      m % registerSizeBits mx = 0 ∧
      (∀ g ∈ reg.fields, g.name ≠ reservedName →
        ∃ f0 ∈ fields, f0.description.name ≠ reservedName ∧
          g = convert_register_field m f0) ∧
      (∀ g ∈ reg.fields, g.name = reservedName →
        g.attr = .RO ∧ g.reset = some 0 ∧ g.description = "") ∧
      (∀ b : Nat, b < registerSizeBits mx →
        (∀ g ∈ reg.fields, g.name ≠ reservedName →
          ¬ (g.bits.begin ≤ b ∧ b < g.bits.stop)) →
        ∃ g ∈ reg.fields, g.name = reservedName ∧ g.bits.begin ≤ b ∧ b < g.bits.stop) ∧
      (∀ gname, f.description.group = some gname → get_group f = gname) := by
  obtain ⟨m, mx, hmin, h8, hmax, hal, hproper, hoff, hname, hfields⟩ :=
    create_register_ok_extract group_name group fields reg h
  have hspec := registerSizeBits_spec mx
  have hmxR : mx ≤ registerSizeBits mx := hspec.2.2.1
  have hreal : ∀ g ∈ reg.fields, g.name ≠ reservedName →
      ∃ f0 ∈ fields, f0.description.name ≠ reservedName ∧
        g = convert_register_field m f0 := by
    intro g hg hgname
    rw [hfields, mem_sortFields] at hg
    rcases List.mem_append.mp hg with hmem | hmem
    · obtain ⟨f0, hf0, rfl⟩ := List.mem_map.mp hmem
      obtain ⟨hf0mem, hf0name⟩ := List.mem_filter.mp hf0
      exact ⟨f0, hf0mem, by simpa using hf0name, rfl⟩
    · obtain ⟨gp, hgp, rfl⟩ := List.mem_map.mp hmem
      exact absurd rfl hgname
  refine ⟨m, mx, hmin, ?_, hoff, h8, hmax, hal, hreal, ?_, ?_, ?_⟩
  · exact (listMin?_spec _ _ hmin).2 f.bitRange.base
      (List.mem_map.mpr ⟨f, hf, rfl⟩)
  · intro g hg hgname
    rw [hfields, mem_sortFields] at hg
    rcases List.mem_append.mp hg with hmem | hmem
    · obtain ⟨f0, hf0, rfl⟩ := List.mem_map.mp hmem
      obtain ⟨hf0mem, hf0name⟩ := List.mem_filter.mp hf0
      exact absurd hgname (by simpa using hf0name)
    · obtain ⟨gp, hgp, rfl⟩ := List.mem_map.mp hmem
      exact ⟨rfl, rfl, rfl⟩
  · intro b hbR hno
    have hcov : ∃ g ∈ reg.fields, g.bits.begin ≤ b ∧ b < g.bits.stop := by
      rw [hfields, exists_mem_sortFields]
      exact (fields_plus_gaps_cover (newFields m fields) (registerSizeBits mx) mx b
        hmax hmxR).mpr hbR
    obtain ⟨g, hg, hgb⟩ := hcov
    by_cases hn : g.name = reservedName
    · exact ⟨g, hg, hn, hgb⟩
    · exact absurd hgb (hno g hg hn)
  · intro gname hg
    simp [get_group, hg]

/-- C10 counterexample: the group "G" holds a real field over [0,8) and a
raw field named "reserved" over the same bits [0,8); synthesis succeeds but
the result contains no reserved field at all, so the dropped field's bit
range is covered by the real field, not by synthesized reserved fill as the
claim states. -/
theorem create_register_reserved_counterexample :
    create_register "G" none
        [RawField.mk (RawDescription.mk "a" (some "G") .RW none "d") (RawBitRange.mk 0 8),
         RawField.mk (RawDescription.mk "reserved" (some "G") .R none "")
           (RawBitRange.mk 0 8)] =
      .ok (Register.mk 0 "G" "d" [RegisterField.mk (BitFieldRange.mk 0 8) "a" .RW none "d"]) ∧
    ((Register.mk 0 "G" "d"
        [RegisterField.mk (BitFieldRange.mk 0 8) "a" .RW none "d"]).fields.countP
      (fun g => g.name == reservedName)) = 0 := by
  decide

/-- C10 witness: a group whose raw "reserved" field at bits [0,8) holds the
group minimum while the real field sits at [8,16); the register starts at
byte 0 because of the dropped reserved field. -/
theorem create_register_reserved_participation_witness :
    create_register "G" none
        [RawField.mk (RawDescription.mk "reserved" (some "G") .R none "")
          (RawBitRange.mk 0 8),
         RawField.mk (RawDescription.mk "x" (some "G") .RW none "d") (RawBitRange.mk 8 8)] =
      .ok (Register.mk 0 "G" "d"
        [RegisterField.mk (BitFieldRange.mk 0 8) "reserved" .RO (some 0) "",
         RegisterField.mk (BitFieldRange.mk 8 16) "x" .RW none "d"]) ∧
    ∃ m mx,
      listMin? ([RawField.mk (RawDescription.mk "reserved" (some "G") .R none "")
          (RawBitRange.mk 0 8),
        RawField.mk (RawDescription.mk "x" (some "G") .RW none "d")
          (RawBitRange.mk 8 8)].map (fun ff => ff.bitRange.base)) = some m ∧
      m ≤ 0 ∧ m % 8 = 0 ∧
      listMax? ((newFields m
        [RawField.mk (RawDescription.mk "reserved" (some "G") .R none "")
          (RawBitRange.mk 0 8),
         RawField.mk (RawDescription.mk "x" (some "G") .RW none "d")
          (RawBitRange.mk 8 8)]).map (fun ff => ff.bits.stop)) = some mx := by
  refine ⟨by decide, ?_⟩
  obtain ⟨m, mx, h1, h2, _, h4, h5, _⟩ := create_register_reserved_participation "G" none
    [RawField.mk (RawDescription.mk "reserved" (some "G") .R none "") (RawBitRange.mk 0 8),
     RawField.mk (RawDescription.mk "x" (some "G") .RW none "d") (RawBitRange.mk 8 8)]
    (RawField.mk (RawDescription.mk "reserved" (some "G") .R none "") (RawBitRange.mk 0 8))
    (Register.mk 0 "G" "d"
      [RegisterField.mk (BitFieldRange.mk 0 8) "reserved" .RO (some 0) "",
       RegisterField.mk (BitFieldRange.mk 8 16) "x" .RW none "d"])
    (by simp) rfl (by decide)
  exact ⟨m, mx, h1, h2, h4, h5⟩

-- ------------------------------------------------------------------
-- The register-map validator (C1, C9)
-- ------------------------------------------------------------------

theorem regIv_inj {r1 r2 : Register} (h : regIv r1 = regIv r2) : r1 = r2 :=
  congrArg RegInterval.data h

theorem mem_tree_iff (registers : List Register) (iv : RegInterval) :
    iv ∈ (registers.map regIv).dedup ↔ ∃ r ∈ registers, regIv r = iv := by
  rw [List.mem_dedup, List.mem_map]

theorem overlapsB_regIv (r1 r2 : Register) :
    intervalOverlapsB (regIv r1) (regIv r2) = true ↔ registersOverlap r1 r2 := by
  simp [intervalOverlapsB, regIv, registersOverlap]

theorem treeSearch_mem (tree : List RegInterval) (x y : RegInterval) :
    y ∈ treeSearch tree x ↔ y ∈ tree ∧ intervalOverlapsB x y = true := by
  simp [treeSearch, List.mem_filter]

theorem findOverlapAux_spec (tree : List RegInterval) :
    ∀ (scan out : List RegInterval), findOverlapAux tree scan = out → out ≠ [] →
      ∃ x ∈ scan, out = treeSearch tree x ∧ 1 < out.length
  | [], out, h, hne => by
    simp only [findOverlapAux] at h
    exact absurd h.symm hne
  | x :: rest, out, h, hne => by
    simp only [findOverlapAux] at h
    split_ifs at h with hx
    · exact ⟨x, by simp, h.symm, h ▸ hx⟩
    · obtain ⟨y, hy, hout, hlen⟩ := findOverlapAux_spec tree rest out h hne
      exact ⟨y, List.mem_cons_of_mem _ hy, hout, hlen⟩

theorem findOverlapAux_ne_nil (tree : List RegInterval) :
    ∀ scan : List RegInterval, (∃ x ∈ scan, 1 < (treeSearch tree x).length) →
      findOverlapAux tree scan ≠ []
  | [], h => by simp at h
  | x :: rest, h => by
    simp only [findOverlapAux]
    split_ifs with hx
    · intro hc
      rw [hc] at hx
      simp at hx
    · obtain ⟨y, hy, hlen⟩ := h
      rcases List.mem_cons.mp hy with rfl | hmem
      · exact absurd hlen hx
      · exact findOverlapAux_ne_nil tree rest ⟨y, hmem, hlen⟩

theorem registerIntervals_ok (registers : List Register)
    (hwf : ∀ r ∈ registers, r.fields ≠ [] ∧ r.byte_range.1 < r.byte_range.2) :
    registerIntervals registers = .ok (registers.map regIv) := by
  induction registers with
  | nil => rfl
  | cons r rest ih =>
    have hr := hwf r (by simp)
    have hint : registerInterval r = .ok (regIv r) := by
      unfold registerInterval
      rcases hfld : r.fields with _ | ⟨f, fs⟩
      · exact absurd hfld hr.1
      · simp only [hfld]
        rw [if_pos hr.2]
        rfl
    have ih2 := ih (fun x hx => hwf x (List.mem_cons_of_mem _ hx))
    simp [registerIntervals, hint, ih2]

theorem find_overlapping_ne_nil_iff (registers : List Register)
    (hwf : ∀ r ∈ registers, r.byte_range.1 < r.byte_range.2) :
    find_overlapping_intervals (registers.map regIv) ≠ [] ↔
      ∃ r1 ∈ registers, ∃ r2 ∈ registers, r1 ≠ r2 ∧ registersOverlap r1 r2 := by
  constructor
  · intro hne
    obtain ⟨x, hx, hout, hlen⟩ := findOverlapAux_spec ((registers.map regIv).dedup)
      ((registers.map regIv).dedup) (find_overlapping_intervals (registers.map regIv)) rfl hne
    have hnodup := List.nodup_dedup (registers.map regIv)
    have hnds : (treeSearch ((registers.map regIv).dedup) x).Nodup := hnodup.filter _
    rw [hout] at hlen
    obtain ⟨a, ha, b, hb, hab⟩ := nodup_two_of_lt_length hnds hlen
    have hxtree : x ∈ (registers.map regIv).dedup := hx
    have hy : ∃ y ∈ treeSearch ((registers.map regIv).dedup) x, y ≠ x := by
      by_cases hax : a = x
      · exact ⟨b, hb, fun hbx => hab (hax.trans hbx.symm)⟩
      · exact ⟨a, ha, hax⟩
    obtain ⟨y, hymem, hyx⟩ := hy
    obtain ⟨hytree, hyov⟩ := (treeSearch_mem _ x y).mp hymem
    obtain ⟨r1, hr1, hr1x⟩ := (mem_tree_iff registers x).mp hxtree
    obtain ⟨r2, hr2, hr2y⟩ := (mem_tree_iff registers y).mp hytree
    refine ⟨r1, hr1, r2, hr2, ?_, ?_⟩
    · intro hr
      exact hyx (hr2y.symm.trans ((hr ▸ hr1x : regIv r2 = x)))
    · rw [← overlapsB_regIv]
      rw [hr1x, hr2y]
      exact hyov
  · rintro ⟨r1, hr1, r2, hr2, hne, hov⟩
    apply findOverlapAux_ne_nil
    refine ⟨regIv r1, (mem_tree_iff registers (regIv r1)).mpr ⟨r1, hr1, rfl⟩, ?_⟩
    have hself : regIv r1 ∈ treeSearch ((registers.map regIv).dedup) (regIv r1) := by
      rw [treeSearch_mem]
      refine ⟨(mem_tree_iff registers (regIv r1)).mpr ⟨r1, hr1, rfl⟩, ?_⟩
      rw [overlapsB_regIv]
      exact ⟨hwf r1 hr1, hwf r1 hr1⟩
    have hother : regIv r2 ∈ treeSearch ((registers.map regIv).dedup) (regIv r1) := by
      rw [treeSearch_mem]
      exact ⟨(mem_tree_iff registers (regIv r2)).mpr ⟨r2, hr2, rfl⟩,
        (overlapsB_regIv r1 r2).mpr hov⟩
    have hne' : regIv r2 ≠ regIv r1 := fun hh => hne (regIv_inj hh).symm
    have := two_mem_le_length hother hself hne'
    omega

/-- C1 (amended): when two distinct well-formed registers have overlapping
byte ranges, the validator fails with a collision error whose reported list
holds at least two registers: exactly the registers overlapping the first
register, in scan order, found to overlap another.  Registers that only
overlap other registers can be left out of the report (see the
counterexample), so the error does not always list the whole set of
overlapping registers. -/
theorem validate_registers_collision_report (registers : List Register)
    (hwf : ∀ r ∈ registers, r.fields ≠ [] ∧ r.byte_range.1 < r.byte_range.2)
    (hover : ∃ r1 ∈ registers, ∃ r2 ∈ registers, r1 ≠ r2 ∧ registersOverlap r1 r2) :
    ∃ reported, validate_registers registers = .error (.overlappingRegisters reported) ∧
      2 ≤ reported.length ∧ (∀ r ∈ reported, r ∈ registers) ∧
      ∃ x ∈ registers, (∀ r ∈ reported, registersOverlap x r) ∧
        (∀ r ∈ registers, registersOverlap x r → r ∈ reported) := by
  have hints := registerIntervals_ok registers hwf
  have hne := (find_overlapping_ne_nil_iff registers (fun r hr => (hwf r hr).2)).mpr hover
  rcases hfo : find_overlapping_intervals (registers.map regIv) with _ | ⟨o, os⟩
  · exact absurd hfo hne
  · obtain ⟨x, hx, hout, hlen⟩ := findOverlapAux_spec ((registers.map regIv).dedup)
      ((registers.map regIv).dedup) (o :: os) hfo (by simp)
    obtain ⟨xr, hxr, hxrx⟩ := (mem_tree_iff registers x).mp hx
    refine ⟨(o :: os).map (fun iv => iv.data), ?_, ?_, ?_, xr, hxr, ?_, ?_⟩
    · unfold validate_registers
      rw [hints]
      simp only [hfo]
    · rw [List.length_map]
      omega
    · intro r hr
      obtain ⟨iv, hiv, rfl⟩ := List.mem_map.mp hr
      rw [hout] at hiv
      obtain ⟨hivtree, _⟩ := (treeSearch_mem _ _ _).mp hiv
      obtain ⟨r', hr', hr'iv⟩ := (mem_tree_iff registers iv).mp hivtree
      have : r' = iv.data := congrArg RegInterval.data hr'iv
      rw [← this]
      exact hr'
    · intro r hr
      obtain ⟨iv, hiv, rfl⟩ := List.mem_map.mp hr
      rw [hout] at hiv
      obtain ⟨hivtree, hivov⟩ := (treeSearch_mem _ _ _).mp hiv
      obtain ⟨r', hr', hr'iv⟩ := (mem_tree_iff registers iv).mp hivtree
      have hd : r' = iv.data := congrArg RegInterval.data hr'iv
      rw [← hd]
      rw [← overlapsB_regIv]
      rw [hxrx, hr'iv]
      exact hivov
    · intro r hr hrov
      rw [hout]
      have : regIv r ∈ treeSearch ((registers.map regIv).dedup) x := by
        rw [treeSearch_mem]
        refine ⟨(mem_tree_iff registers (regIv r)).mpr ⟨r, hr, rfl⟩, ?_⟩
        rw [← hxrx, overlapsB_regIv]
        exact hrov
      exact List.mem_map.mpr ⟨regIv r, this, rfl⟩

/-- C1 counterexample: four registers forming two separate overlapping
pairs, (a,b) at byte 0 and (c,d) at byte 10; the error reports only a and b
although c and d also overlap each other, so the message does not list every
overlapping register. -/
theorem validate_registers_clique_counterexample :
    validate_registers
        [Register.mk 0 "a" "" [RegisterField.mk (BitFieldRange.mk 0 8) "x" .RW none ""],
         Register.mk 0 "b" "" [RegisterField.mk (BitFieldRange.mk 0 8) "x" .RW none ""],
         Register.mk 10 "c" "" [RegisterField.mk (BitFieldRange.mk 0 8) "x" .RW none ""],
         Register.mk 10 "d" "" [RegisterField.mk (BitFieldRange.mk 0 8) "x" .RW none ""]] =
      .error (.overlappingRegisters
        [Register.mk 0 "a" "" [RegisterField.mk (BitFieldRange.mk 0 8) "x" .RW none ""],
         Register.mk 0 "b" "" [RegisterField.mk (BitFieldRange.mk 0 8) "x" .RW none ""]]) ∧
    registersOverlap
      (Register.mk 10 "c" "" [RegisterField.mk (BitFieldRange.mk 0 8) "x" .RW none ""])
      (Register.mk 10 "d" "" [RegisterField.mk (BitFieldRange.mk 0 8) "x" .RW none ""]) ∧
    Register.mk 10 "c" "" [RegisterField.mk (BitFieldRange.mk 0 8) "x" .RW none ""] ∉
      [Register.mk 0 "a" "" [RegisterField.mk (BitFieldRange.mk 0 8) "x" .RW none ""],
       Register.mk 0 "b" "" [RegisterField.mk (BitFieldRange.mk 0 8) "x" .RW none ""]] ∧
    Register.mk 10 "d" "" [RegisterField.mk (BitFieldRange.mk 0 8) "x" .RW none ""] ∉
      [Register.mk 0 "a" "" [RegisterField.mk (BitFieldRange.mk 0 8) "x" .RW none ""],
       Register.mk 0 "b" "" [RegisterField.mk (BitFieldRange.mk 0 8) "x" .RW none ""]] := by
  refine ⟨by decide, ⟨by decide, by decide⟩, by decide, by decide⟩

/-- C1 witness: the theorem applied to two overlapping registers at byte 0;
the validator reports both. -/
theorem validate_registers_collision_report_witness :
    ∃ reported, validate_registers
        [Register.mk 0 "a" "" [RegisterField.mk (BitFieldRange.mk 0 8) "x" .RW none ""],
         Register.mk 0 "b" "" [RegisterField.mk (BitFieldRange.mk 0 8) "x" .RW none ""]] =
      .error (.overlappingRegisters reported) ∧ 2 ≤ reported.length := by
  obtain ⟨reported, h1, h2, -⟩ := validate_registers_collision_report
    [Register.mk 0 "a" "" [RegisterField.mk (BitFieldRange.mk 0 8) "x" .RW none ""],
     Register.mk 0 "b" "" [RegisterField.mk (BitFieldRange.mk 0 8) "x" .RW none ""]]
    (by decide)
    ⟨Register.mk 0 "a" "" [RegisterField.mk (BitFieldRange.mk 0 8) "x" .RW none ""], by simp,
     Register.mk 0 "b" "" [RegisterField.mk (BitFieldRange.mk 0 8) "x" .RW none ""], by simp,
     by decide, by decide, by decide⟩
  exact ⟨reported, h1, h2⟩

-- ------------------------------------------------------------------
-- C9 : collision check and final ordering of the register map
-- ------------------------------------------------------------------

/-- C9 (amended): byte ranges are half-open at the top, not inclusive as the
claim reads them; for well-formed registers the validating load fails with a
collision error iff two registers that differ as values have overlapping
half-open byte ranges, and on success returns the registers sorted ascending
by byte offset.  The counterexample shows two byte-adjacent registers whose
inclusive byte intervals share a byte being accepted. -/
theorem load_register_map_spec (registers : List Register)
    (hwf : ∀ r ∈ registers, r.fields ≠ [] ∧ r.byte_range.1 < r.byte_range.2) :
    ((∃ e, load_register_map registers = .error e) ↔
      ∃ r1 ∈ registers, ∃ r2 ∈ registers, r1 ≠ r2 ∧ registersOverlap r1 r2) ∧
    (∀ mp, load_register_map registers = .ok mp →
      mp.registers.Perm registers ∧
      List.Pairwise (fun a b => a.byte_offset ≤ b.byte_offset) mp.registers) := by
  have hints := registerIntervals_ok registers hwf
  have hiff := find_overlapping_ne_nil_iff registers (fun r hr => (hwf r hr).2)
  rcases hfo : find_overlapping_intervals (registers.map regIv) with _ | ⟨o, os⟩
  · have hval : validate_registers registers = .ok () := by
      unfold validate_registers
      rw [hints]
      simp only [hfo]
    have hload : load_register_map registers = .ok ⟨sortRegistersByOffset registers⟩ := by
      unfold load_register_map
      rw [hval]
    constructor
    · constructor
      · rintro ⟨e, he⟩
        rw [hload] at he
        cases he
      · intro hpair
        exact absurd hfo (hiff.mpr hpair)
    · intro mp hmp
      rw [hload] at hmp
      have := Except.ok.inj hmp
      subst this
      constructor
      · exact List.perm_insertionSort _ registers
      · exact insertionSort_key_sorted (fun r : Register => r.byte_offset) registers
  · have hval : validate_registers registers =
        .error (.overlappingRegisters ((o :: os).map (fun iv => iv.data))) := by
      unfold validate_registers
      rw [hints]
      simp only [hfo]
    have hload : load_register_map registers =
        .error (.overlappingRegisters ((o :: os).map (fun iv => iv.data))) := by
      unfold load_register_map
      rw [hval]
    constructor
    · constructor
      · intro _
        exact hiff.mp (by simp [hfo])
      · intro _
        exact ⟨_, hload⟩
    · intro mp hmp
      rw [hload] at hmp
      cases hmp

/-- C9 counterexample: registers a and b occupy bytes [0,1) and [1,2); their
inclusive byte intervals [0,1] and [1,2] share byte 1, so the claim predicts
a CollisionError, but the code compares half-open ranges and accepts them,
returning the sorted map. -/
theorem load_register_map_counterexample :
    load_register_map
        [Register.mk 0 "a" "" [RegisterField.mk (BitFieldRange.mk 0 8) "x" .RW none ""],
         Register.mk 1 "b" "" [RegisterField.mk (BitFieldRange.mk 0 8) "y" .RW none ""]] =
      .ok (RegisterMap.mk
        [Register.mk 0 "a" "" [RegisterField.mk (BitFieldRange.mk 0 8) "x" .RW none ""],
         Register.mk 1 "b" "" [RegisterField.mk (BitFieldRange.mk 0 8) "y" .RW none ""]]) ∧
    specInclusiveOverlap
      (Register.mk 0 "a" "" [RegisterField.mk (BitFieldRange.mk 0 8) "x" .RW none ""])
      (Register.mk 1 "b" "" [RegisterField.mk (BitFieldRange.mk 0 8) "y" .RW none ""]) := by
  exact ⟨by decide, by decide, by decide⟩

/-- C9 witness: the theorem applied to two registers both at byte 0, which
must be rejected. -/
theorem load_register_map_spec_witness :
    ∃ e, load_register_map
        [Register.mk 0 "a" "" [RegisterField.mk (BitFieldRange.mk 0 8) "x" .RW none ""],
         Register.mk 0 "b" "" [RegisterField.mk (BitFieldRange.mk 0 8) "y" .RW none ""]] =
      .error e := by
  exact (load_register_map_spec
    [Register.mk 0 "a" "" [RegisterField.mk (BitFieldRange.mk 0 8) "x" .RW none ""],
     Register.mk 0 "b" "" [RegisterField.mk (BitFieldRange.mk 0 8) "y" .RW none ""]]
    (by decide)).1.mpr
    ⟨Register.mk 0 "a" "" [RegisterField.mk (BitFieldRange.mk 0 8) "x" .RW none ""], by simp,
     Register.mk 0 "b" "" [RegisterField.mk (BitFieldRange.mk 0 8) "y" .RW none ""], by simp,
     by decide, by decide, by decide⟩

end Scribble
